import Mathlib

/-!
# Verification of the ld-find-code-refs core (coderefs package)

A shallow embedding of the code-reference extraction and hunking engine:
the per-file aggregation of search results (`aggregateByPath`,
`addSearchResult`), the hunk construction algorithm (`buildHunksForFlag`
and its driver loops), line truncation (`truncateLine`), the search-term
matcher built in `findReferencedFlags`, and the submit/prune decision
logic at the end of `Scan`.

Go machine integers are modelled as `Int`/`Nat` (no overflow is reachable
in the modelled code paths: line numbers and counters only ever grow by
small increments from small starting values). The Go linked list of search
result lines is modelled as a `List` with positional indices standing for
node pointers; `ptr.Prev()`/`ptr.Next()` become index decrements and
increments guarded at the ends. Fallible operations (a `log.Fatal`, a
runtime panic) are modelled with `Option`, `none` standing for abnormal
termination.
-/

namespace Coderefs

/-- Defensive limit constants from the source. -/
def minFlagKeyLen : Nat := 3

/-- Maximum number of files containing code references. -/
def maxFileCount : Nat := 10000

/-- Maximum number of characters per line (the source compares byte length). -/
def maxLineCharCount : Nat := 500

/-- Maximum number of total code references. -/
def maxHunkCount : Nat := 25000

/-- Maximum number of lines per flag in a file. -/
def maxHunkedLinesPerFileAndFlagCount : Nat := 500

/-- One line of search output: `searchResultLine` (path, 1-based line
number, the raw line text, and a map from flag keys to the aliases that
matched on this line; an entry with an empty alias list means the flag key
itself matched). The Go map is modelled as an association list. -/
structure SearchResultLine where
  path : String
  lineNum : Int
  lineText : String
  flagKeys : List (String × List String)
deriving DecidableEq, Inhabited, Repr

/-- Go map lookup `m[flag]`: a missing key yields the zero value (an empty
slice). -/
def lookupFlag (m : List (String × List String)) (flag : String) : List String :=
  match m.find? (fun p => p.1 == flag) with
  | some p => p.2
  | none => []

/-- `ld.HunkRep` as populated by the hunker. -/
structure HunkRep where
  projKey : String
  flagKey : String
  startingLineNumber : Int
  lines : String
  aliases : List String
deriving DecidableEq, Inhabited, Repr

/-- `initHunk` from the source. -/
def initHunk (projKey flagKey : String) : HunkRep :=
  { projKey := projKey, flagKey := flagKey, startingLineNumber := 0,
    lines := "", aliases := [] }

/-- List access standing for dereferencing a linked-list node by position.
All theorems keep indices in bounds, so the default never matters. -/
def lineAt (lines : List SearchResultLine) (i : Nat) : SearchResultLine :=
  lines.getD i default

/-- The line number stored at position `i`. -/
def lineNumAt (lines : List SearchResultLine) (i : Nat) : Int :=
  (lineAt lines i).lineNum

/-- `truncateLine` from the source. The source compares the byte length
(`len(line)`) with `maxLineCharCount` but then slices the first
`maxLineCharCount` *runes* (`runes[0:500]`). When the line has more than
500 bytes but fewer than 500 runes that slice is out of range (a Go
runtime panic), modelled as `none`. -/
def truncateLine (line : String) : Option String :=
  if maxLineCharCount < line.utf8ByteSize then
    if maxLineCharCount ≤ line.data.length then
      some (String.mk (line.data.take maxLineCharCount) ++ "…")
    else none
  else some line

/-- The value `truncateLine` produces on every input where it does not
panic; the hunker below is stated with this total function, and the
claims about the hunker carry hypotheses keeping inputs in the
non-panicking domain. -/
def truncateLineNoPanic (line : String) : String :=
  if maxLineCharCount < line.utf8ByteSize then
    String.mk (line.data.take maxLineCharCount) ++ "…"
  else line

/-- Modelled from the spec: `helpers.Dedupe` (the `internal/helpers`
package is not among the provided sources) — "aliases: deduplicated list
of aliases that contributed": removes duplicates keeping the first
occurrence of each element in order. -/
def dedupe (xs : List String) : List String :=
  xs.foldl (fun acc x => if x ∈ acc then acc else acc ++ [x]) []

/-- The backward-seek loop of `buildHunksForFlag`: `ctxLines` iterations;
each iteration steps `ptr` to its predecessor if one exists (counting the
step in `numCtxLinesBeforeFlagRef`) and then, on the current node, checks
whether its line number is at most `lastSeenLineNum`, recording the
overlap in `appendToPreviousHunk`. State is `(ptr, numCtx, append?)`. -/
def seekBack (lines : List SearchResultLine) (lastSeen : Int) :
    Nat → Nat × Nat × Bool → Nat × Nat × Bool
  | 0, st => st
  | k + 1, (ptr, numCtx, ap) =>
    let ptr' := if 0 < ptr then ptr - 1 else ptr
    let numCtx' := if 0 < ptr then numCtx + 1 else numCtx
    let ap' := ap || decide (lineNumAt lines ptr' ≤ lastSeen)
    seekBack lines lastSeen k (ptr', numCtx', ap')

/-- Mutable state of the forward walk inside `buildHunksForFlag`. -/
structure WalkState where
  ptr : Nat
  lastSeen : Int
  builder : String
  curAliases : List String
  numHunked : Nat
deriving Repr

/-- The forward walk of `buildHunksForFlag`: a given number of steps; at
each step, if the current node's line number exceeds `lastSeenLineNum`,
its (truncated) text and a newline are appended to the string builder,
`lastSeenLineNum` is advanced, the hunked-line counter is bumped, and the
aliases the line recorded for the flag are appended to the current hunk's
alias list; then `ptr` advances if a successor exists. -/
def walkForward (lines : List SearchResultLine) (flag : String) :
    Nat → WalkState → WalkState
  | 0, st => st
  | k + 1, st =>
    let line := lineAt lines st.ptr
    let st1 :=
      if st.lastSeen < line.lineNum then
        { st with
          builder := st.builder ++ truncateLineNoPanic line.lineText ++ "\n"
          lastSeen := line.lineNum
          numHunked := st.numHunked + 1
          curAliases := st.curAliases ++ lookupFlag line.flagKeys flag }
      else st
    let st2 := if st1.ptr + 1 < lines.length then { st1 with ptr := st1.ptr + 1 } else st1
    walkForward lines flag k st2

/-- `previousHunk.Lines = hunkStringBuilder.String()`: `previousHunk`
always points at the last appended hunk, so overwriting through it
rewrites the last element's `lines`. On an empty list the Go code would
dereference a nil pointer; the theorems' hypotheses keep that
unreachable. -/
def setLastLines (hs : List HunkRep) (s : String) : List HunkRep :=
  match hs with
  | [] => []
  | [h] => [{ h with lines := s }]
  | h :: h' :: t => h :: setLastLines (h' :: t) s

/-- The per-reference loop state of `buildHunksForFlag`:
the emitted hunks, `lastSeenLineNum`, the string builder, and the fields
of the local `currentHunk` that survive across iterations
(`StartingLineNumber` and `Aliases`), plus `numHunkedLines`.
`appendToPreviousHunk` is false at every loop boundary (it is either
never set or reset after use), so it is local to `processRef`. -/
structure BuildState where
  hunks : List HunkRep
  lastSeenLineNum : Int
  builder : String
  curStart : Int
  curAliases : List String
  numHunkedLines : Nat
deriving Repr

/-- One iteration of the `for _, ref := range flagReferences` loop of
`buildHunksForFlag`: backward seek, optional initialization of a new
hunk, forward walk, then either the previous hunk's `lines` is
overwritten (append case — note the Go code updates only `Lines` through
`previousHunk`, so aliases gathered during this walk stay on the local
`currentHunk` copy and are dropped) or the new hunk is appended after
deduplicating its aliases. -/
def processRef (projKey flag : String) (lines : List SearchResultLine) (ctxLines : Int)
    (st : BuildState) (ref : Nat) : BuildState :=
  let sb := seekBack lines st.lastSeenLineNum ctxLines.toNat (ref, 0, false)
  let ptr0 := sb.1
  let numCtx := sb.2.1
  let ap := sb.2.2
  let start := if ap then st.curStart else lineNumAt lines ptr0
  let b0 := if ap then st.builder else ""
  let a0 := if ap then st.curAliases else []
  let w := walkForward lines flag ((numCtx : Int) + 1 + ctxLines).toNat
    { ptr := ptr0, lastSeen := st.lastSeenLineNum, builder := b0,
      curAliases := a0, numHunked := st.numHunkedLines }
  if ap then
    { hunks := setLastLines st.hunks w.builder
      lastSeenLineNum := w.lastSeen
      builder := w.builder
      curStart := start
      curAliases := w.curAliases
      numHunkedLines := w.numHunked }
  else
    { hunks := st.hunks ++
        [{ projKey := projKey, flagKey := flag, startingLineNumber := start,
           lines := w.builder, aliases := dedupe w.curAliases }]
      lastSeenLineNum := w.lastSeen
      builder := w.builder
      curStart := start
      curAliases := dedupe w.curAliases
      numHunkedLines := w.numHunked }

/-- The reference loop of `buildHunksForFlag` with its early return:
after each reference, if `numHunkedLines` exceeds the per-(file, flag)
cap, the hunks built so far are returned and the remaining references are
not processed. This variant returns the whole state. -/
def buildHunksGoState (projKey flag : String) (lines : List SearchResultLine)
    (ctxLines : Int) (st : BuildState) : List Nat → BuildState
  | [] => st
  | r :: rs =>
    let st' := processRef projKey flag lines ctxLines st r
    if maxHunkedLinesPerFileAndFlagCount < st'.numHunkedLines then st'
    else buildHunksGoState projKey flag lines ctxLines st' rs

/-- The reference loop of `buildHunksForFlag`, returning the hunk list
(the Go function's return value). -/
def buildHunksGo (projKey flag : String) (lines : List SearchResultLine)
    (ctxLines : Int) (st : BuildState) : List Nat → List HunkRep
  | [] => st.hunks
  | r :: rs =>
    let st' := processRef projKey flag lines ctxLines st r
    if maxHunkedLinesPerFileAndFlagCount < st'.numHunkedLines then st'.hunks
    else buildHunksGo projKey flag lines ctxLines st' rs

/-- Initial loop state of `buildHunksForFlag` (`lastSeenLineNum = -1`,
zero-valued `currentHunk`, empty builder and hunk list). -/
def initBuildState : BuildState :=
  { hunks := [], lastSeenLineNum := -1, builder := "", curStart := 0,
    curAliases := [], numHunkedLines := 0 }

/-- `buildHunksForFlag`: fold the per-reference step over the flag's
reference positions. `path` is used only in the truncation warning. -/
def buildHunksForFlag (projKey flag _path : String) (lines : List SearchResultLine)
    (flagReferences : List Nat) (ctxLines : Int) : List HunkRep :=
  buildHunksGo projKey flag lines ctxLines initBuildState flagReferences

/-- `fileSearchResults`: the per-file line sequence plus the index from
flag keys to the positions (list indices standing for `*list.Element`)
mentioning them. The Go map is modelled as an association list (Go map
iteration order is unspecified; no claim depends on it). -/
structure FileSearchResults where
  path : String
  fileSearchResultLines : List SearchResultLine
  flagReferenceMap : List (String × List Nat)
deriving DecidableEq, Repr

/-- `makeHunkReps`: build hunks for each flag of the file and
concatenate. -/
def makeHunkReps (projKey : String) (fsr : FileSearchResults) (ctxLines : Int) :
    List HunkRep :=
  fsr.flagReferenceMap.foldl
    (fun hunks p =>
      hunks ++ buildHunksForFlag projKey p.1 fsr.path fsr.fileSearchResultLines p.2 ctxLines)
    []

/-- `ld.ReferenceHunksRep`. -/
structure ReferenceHunksRep where
  path : String
  hunks : List HunkRep
deriving DecidableEq, Repr

/-- The file loop of `makeReferenceHunksReps`: before each file the
running hunk total is checked against `maxHunkCount` (`break` on breach,
modelled by returning no further reps); a file yielding no hunks is
skipped (its only effect is logging, which the model drops); otherwise
the file's rep is emitted and the total grows. -/
def makeReferenceHunksRepsGo (projKey : String) (ctxLines : Int) :
    Nat → List FileSearchResults → List ReferenceHunksRep
  | _, [] => []
  | numHunks, f :: fs =>
    if maxHunkCount < numHunks then []
    else
      let hunks := makeHunkReps projKey f ctxLines
      if hunks.isEmpty then makeReferenceHunksRepsGo projKey ctxLines numHunks fs
      else { path := f.path, hunks := hunks } ::
        makeReferenceHunksRepsGo projKey ctxLines (numHunks + hunks.length) fs

/-- `addSearchResult`: compare the new line against the last line already
stored for the current file; a strictly smaller line number is the fatal
"search results returned out of order" case (`none`); otherwise the line
is appended. -/
def addSearchResult (lines : List SearchResultLine) (r : SearchResultLine) :
    Option (List SearchResultLine) :=
  match lines.getLast? with
  | some prev => if r.lineNum < prev.lineNum then none else some (lines ++ [r])
  | none => some (lines ++ [r])

/-- Append `ref` to `key`'s entry, creating the entry if absent. -/
def insertFlagRef : List (String × List Nat) → String → Nat → List (String × List Nat)
  | [], key, ref => [(key, [ref])]
  | (k, rs) :: t, key, ref =>
    if k == key then (k, rs ++ [ref]) :: t else (k, rs) :: insertFlagRef t key ref

/-- `addFlagReference`: record that position `ref` mentions `key`. -/
def addFlagReference (fsr : FileSearchResults) (key : String) (ref : Nat) :
    FileSearchResults :=
  { fsr with flagReferenceMap := insertFlagRef fsr.flagReferenceMap key ref }

/-- A fresh `fileSearchResults` for a path. -/
def emptyFSR (path : String) : FileSearchResults :=
  { path := path, fileSearchResultLines := [], flagReferenceMap := [] }

/-- The loop body of `aggregateByPath`: on a path change the current file
is flushed and a fresh one is started; the search result is added (the
fatal out-of-order check lives in `addSearchResult`), and every flag key
the line mentions gets a reference to the new element. -/
def aggregateStep : FileSearchResults → List FileSearchResults →
    List SearchResultLine → Option (List FileSearchResults)
  | cur, acc, [] => some (acc ++ [cur])
  | cur, acc, r :: rest =>
    let acc' := if r.path == cur.path then acc else acc ++ [cur]
    let cur' := if r.path == cur.path then cur else emptyFSR r.path
    match addSearchResult cur'.fileSearchResultLines r with
    | none => none
    | some lines' =>
      let elemIdx := cur'.fileSearchResultLines.length
      let cur'' := { cur' with fileSearchResultLines := lines' }
      let cur''' := r.flagKeys.foldl (fun f p => addFlagReference f p.1 elemIdx) cur''
      aggregateStep cur''' acc' rest

/-- `aggregateByPath` (assumes the input is already sorted by path):
split the flat result sequence into per-file `fileSearchResults`;
`none` models the fatal sort-order violation. -/
def aggregateByPath : List SearchResultLine → Option (List FileSearchResults)
  | [] => some []
  | g0 :: rest => aggregateStep (emptyFSR g0.path) [] (g0 :: rest)

/-- `makeReferenceHunksReps` on the flat sorted line sequence: aggregate
by path, truncate the file list at `maxFileCount`, and run the emission
loop. -/
def makeReferenceHunksReps (projKey : String) (ctxLines : Int)
    (g : List SearchResultLine) : Option (List ReferenceHunksRep) :=
  (aggregateByPath g).map
    (fun agg => makeReferenceHunksRepsGo projKey ctxLines 0 (agg.take maxFileCount))

/-- `ld.BranchRep` (the JSON `omitempty` pointer field is an `Option`:
`none` means the field is omitted from the submitted report). -/
structure BranchRep where
  name : String
  head : String
  updateSequenceId : Option Int
  syncTime : Int
  references : List ReferenceHunksRep
deriving DecidableEq, Repr

/-- The `branch` struct built in `Scan`. -/
structure Branch where
  name : String
  head : String
  updateSequenceId : Option Int
  syncTime : Int
  searchResults : List SearchResultLine

/-- Strip a leading `refs/heads/` (strings.TrimPrefix), stated over the
character list so that it evaluates by kernel reduction. -/
def trimRefsHeads (s : String) : String :=
  if "refs/heads/".data.isPrefixOf s.data then
    String.mk (s.data.drop ("refs/heads/".data.length))
  else s

/-- `makeBranchRep`. -/
def makeBranchRep (b : Branch) (projKey : String) (ctxLines : Int) : Option BranchRep :=
  (makeReferenceHunksReps projKey ctxLines b.searchResults).map
    (fun refs =>
      { name := trimRefsHeads b.name, head := b.head,
        updateSequenceId := b.updateSequenceId, syncTime := b.syncTime,
        references := refs })

/-- The `updateSequenceId` wiring in `Scan`: the option is carried into
the branch only when it is at least zero. -/
def scanUpdateId (optsUpdateSequenceId : Int) : Option Int :=
  if 0 ≤ optsUpdateSequenceId then some optsUpdateSequenceId else none

/-! ## The search-term matcher of `findReferencedFlags`

The source builds, for the flag key, the regular expression
`[delims]QuoteMeta(key)[delims]` when the delimiter string is non-empty
(the plain `QuoteMeta(key)` otherwise), and for each alias always the
plain `QuoteMeta(alias)`, and calls `MatchString` on the line. Because
`QuoteMeta` makes the term literal, `MatchString` with the delimited
pattern succeeds exactly when some occurrence of the term in the line is
immediately surrounded by delimiter characters, and with the plain
pattern exactly when the term occurs as a substring. The matchers below
are the scanning semantics of those two patterns; strings are scanned as
their character lists. -/

/-- Does `key` start the list `s` (character-wise)? -/
def startsWithChars : List Char → List Char → Bool
  | [], _ => true
  | _ :: _, [] => false
  | a :: as, b :: bs => decide (a = b) && startsWithChars as bs

/-- Is the head of `s` a delimiter character? -/
def headDelim (delims : List Char) : List Char → Bool
  | [] => false
  | c :: _ => decide (c ∈ delims)

/-- `MatchString` of `[delims]key[delims]` on `s`: scan for a position
whose character is a delimiter, followed immediately by `key`, followed
immediately by a delimiter. -/
def matchDelimited (delims key : List Char) : List Char → Bool
  | [] => false
  | d :: rest =>
    (decide (d ∈ delims) && startsWithChars key rest &&
      headDelim delims (rest.drop key.length)) ||
    matchDelimited delims key rest

/-- `MatchString` of the plain quoted term on `s`: substring
occurrence. -/
def containsSub (key : List Char) : List Char → Bool
  | [] => key.isEmpty
  | c :: rest => startsWithChars key (c :: rest) || containsSub key rest

/-- The per-flag body of `findReferencedFlags`: the key is matched with
the delimited pattern when delimiters are configured (plain substring
otherwise); each alias is matched with the plain pattern only. An entry
is produced when the key matched (then possibly with an empty alias
list) or at least one alias matched. -/
def findReferencedFlagsEntry (ref : String) (delims : String) (key : String)
    (flagAliases : List String) : Option (List String) :=
  let keyMatched :=
    if 0 < delims.length then matchDelimited delims.data key.data ref.data
    else containsSub key.data ref.data
  let matched := flagAliases.filter (fun a => containsSub a.data ref.data)
  if keyMatched || !matched.isEmpty then some matched else none

/-- `findReferencedFlags`: the returned map, as an association list in
the order of the input alias map (Go map iteration order is
unspecified; no claim depends on it). -/
def findReferencedFlags (ref : String) (aliases : List (String × List String))
    (delims : String) : List (String × List String) :=
  aliases.filterMap
    (fun p => (findReferencedFlagsEntry ref delims p.1 p.2).map (fun ms => (p.1, ms)))

/-- Spec-side predicate: some occurrence of `key` in `s` is immediately
surrounded by delimiter characters on each side. -/
def DelimitedOccurs (delims key s : List Char) : Prop :=
  ∃ pre d e post, d ∈ delims ∧ e ∈ delims ∧ s = pre ++ d :: (key ++ e :: post)

/-- Spec-side predicate: `key` occurs in `s` as a substring. -/
def SubOccurs (key s : List Char) : Prop :=
  ∃ pre post, s = pre ++ key ++ post

/-! ## The submit / prune decision logic at the end of `Scan` -/

/-- The distinguished errors `PutCodeReferenceBranch` can surface into
`Scan`'s switch statement. -/
inductive PutBranchError where
  | branchUpdateSequenceIdConflict
  | entityTooLarge
  | transient
  | otherFatal
deriving DecidableEq, Repr

/-- Outcome of the pruning phase, abstracting the two fallible calls
(`RemoteBranches`, which on failure is warned about and skipped, and
`deleteStaleBranches`, whose failure goes through
`fatalServiceError`). -/
inductive PruneOutcome where
  | success
  | remoteBranchListFailed
  | deleteFailedTransient
  | deleteFailedFatal
deriving DecidableEq, Repr

/-- `fatalServiceError`: a transient error with `ignoreServiceErrors`
set exits 0; every other path ends in `log.Error.Fatal` (exit 1). -/
def fatalServiceErrorExit (isTransient ignoreServiceErrors : Bool) : Nat :=
  if isTransient && ignoreServiceErrors then 0 else 1

/-- Exit code of the pruning phase. -/
def pruneExit (ignoreServiceErrors : Bool) : PruneOutcome → Nat
  | .success => 0
  | .remoteBranchListFailed => 0
  | .deleteFailedTransient => fatalServiceErrorExit true ignoreServiceErrors
  | .deleteFailedFatal => fatalServiceErrorExit false ignoreServiceErrors

/-- Observable outcome of the tail of `Scan` (from the branch PUT on). -/
structure ScanTail where
  exitCode : Nat
  warnedConflict : Bool
  pruneAttempted : Bool
deriving DecidableEq, Repr

/-- The switch on the branch PUT error at the end of `Scan`, followed by
the pruning phase: a `BranchUpdateSequenceIdConflictErr` only logs a
warning (and only when an updateSequenceId was set) and falls through to
pruning; `EntityTooLargeErr` is fatal; any other error goes through
`fatalServiceError`; success falls through to pruning. -/
def scanSubmitTail (putErr : Option PutBranchError) (updateIdSet : Bool)
    (ignoreServiceErrors : Bool) (prune : PruneOutcome) : ScanTail :=
  match putErr with
  | some .branchUpdateSequenceIdConflict =>
    { exitCode := pruneExit ignoreServiceErrors prune
      warnedConflict := updateIdSet
      pruneAttempted := true }
  | some .entityTooLarge =>
    { exitCode := 1, warnedConflict := false, pruneAttempted := false }
  | some .transient =>
    { exitCode := fatalServiceErrorExit true ignoreServiceErrors
      warnedConflict := false, pruneAttempted := false }
  | some .otherFatal =>
    { exitCode := fatalServiceErrorExit false ignoreServiceErrors
      warnedConflict := false, pruneAttempted := false }
  | none =>
    { exitCode := pruneExit ignoreServiceErrors prune
      warnedConflict := false
      pruneAttempted := true }

/-- Modelled from the spec: the `internal/ld` package (not among the
provided sources) maps HTTP statuses of the branch PUT to the errors
`Scan` switches on — "`PUT … branches …` → `200`, `409`, `413`"; "`409
Conflict` with updateSequenceId semantics"; "`413 Payload Too Large` →
fatal"; "other transient errors → retried … if still failing, surface to
the orchestrator". -/
def putBranchErrorOfStatus (status : Nat) : Option PutBranchError :=
  if status = 200 then none
  else if status = 409 then some .branchUpdateSequenceIdConflict
  else if status = 413 then some .entityTooLarge
  else if 500 ≤ status then some .transient
  else some .otherFatal

/-! ## Derived measures and well-formedness predicates -/

/-- Number of newline characters in a string; with newline-free line
texts this is the number of source lines a hunk's `lines` field
carries. -/
def countNL (s : String) : Nat :=
  s.data.count '\n'

/-- The last line number of a hunk's range as determined by its data:
`startingLineNumber + (number of lines) - 1`. -/
def hunkEnd (h : HunkRep) : Int :=
  h.startingLineNumber + countNL h.lines - 1

/-- A reference line number lies inside a hunk's range. -/
def InHunk (lines : List SearchResultLine) (r : Nat) (h : HunkRep) : Prop :=
  h.startingLineNumber ≤ lineNumAt lines r ∧ lineNumAt lines r ≤ hunkEnd h

/-- A line number lies within some hunk of the list. -/
def CoveredIn (x : Int) (hs : List HunkRep) : Prop :=
  ∃ h ∈ hs, h.startingLineNumber ≤ x ∧ x ≤ hunkEnd h

/-- The hunk's range starts at most `c` lines before some reference it
covers, unless it is clipped at the start of the file's sequence. -/
def LowerOK (lines : List SearchResultLine) (refs : List Nat) (c : Int) (h : HunkRep) : Prop :=
  h.startingLineNumber = lineNumAt lines 0 ∨
    ∃ r ∈ refs, InHunk lines r h ∧ lineNumAt lines r - c ≤ h.startingLineNumber

/-- The hunk's range ends at most `c` lines after some reference it
covers, unless it is clipped at the end of the file's sequence. -/
def UpperOK (lines : List SearchResultLine) (refs : List Nat) (c : Int) (h : HunkRep) : Prop :=
  hunkEnd h = lineNumAt lines (lines.length - 1) ∨
    ∃ r ∈ refs, InHunk lines r h ∧ hunkEnd h ≤ lineNumAt lines r + c

/-- Line numbers are strictly increasing along the file's sequence (the
search driver emits ascending line numbers and collapses multiple
matches on one line into one record). -/
def LinesSorted (lines : List SearchResultLine) : Prop :=
  ∀ i < lines.length, ∀ j < lines.length, i < j → lineNumAt lines i < lineNumAt lines j

/-- All line numbers are at least 1. -/
def LinesPositive (lines : List SearchResultLine) : Prop :=
  ∀ i < lines.length, 1 ≤ lineNumAt lines i

/-- Consecutive entries of the file's sequence carry consecutive line
numbers (the sequence is a contiguous block of the file). -/
def LinesContig (lines : List SearchResultLine) : Prop :=
  ∀ i < lines.length, i + 1 < lines.length →
    lineNumAt lines (i + 1) = lineNumAt lines i + 1

/-- No line text contains a newline (the driver strips line
terminators). -/
def NoNewlines (lines : List SearchResultLine) : Prop :=
  ∀ i < lines.length, '\n' ∉ (lineAt lines i).lineText.data

/-- Flag reference positions are strictly increasing indices into the
file's sequence (each line contributes at most one reference per flag,
in file order). -/
def RefsOK (lines : List SearchResultLine) (refs : List Nat) : Prop :=
  List.Pairwise (· < ·) refs ∧ ∀ r ∈ refs, r < lines.length

instance (lines : List SearchResultLine) : Decidable (LinesSorted lines) :=
  inferInstanceAs (Decidable (∀ i < lines.length, ∀ j < lines.length,
    i < j → lineNumAt lines i < lineNumAt lines j))

instance (lines : List SearchResultLine) : Decidable (LinesPositive lines) :=
  inferInstanceAs (Decidable (∀ i < lines.length, 1 ≤ lineNumAt lines i))

instance (lines : List SearchResultLine) : Decidable (LinesContig lines) :=
  inferInstanceAs (Decidable (∀ i < lines.length, i + 1 < lines.length →
    lineNumAt lines (i + 1) = lineNumAt lines i + 1))

instance (lines : List SearchResultLine) : Decidable (NoNewlines lines) :=
  inferInstanceAs (Decidable (∀ i < lines.length, '\n' ∉ (lineAt lines i).lineText.data))

instance (lines : List SearchResultLine) (refs : List Nat) : Decidable (RefsOK lines refs) :=
  inferInstanceAs (Decidable (List.Pairwise (· < ·) refs ∧ ∀ r ∈ refs, r < lines.length))

instance (lines : List SearchResultLine) (r : Nat) (h : HunkRep) :
    Decidable (InHunk lines r h) :=
  inferInstanceAs (Decidable (_ ∧ _))

instance (x : Int) (hs : List HunkRep) : Decidable (CoveredIn x hs) :=
  inferInstanceAs (Decidable (∃ h ∈ hs, h.startingLineNumber ≤ x ∧ x ≤ hunkEnd h))

/-- Tail-state version of the out-of-order check: scanning from a current
path and the line number of the last stored line of that path's file. -/
def stepViol (curPath : String) (lastNum : Option Int) : List SearchResultLine → Bool
  | [] => false
  | r :: rest =>
    ((r.path == curPath) &&
      match lastNum with
      | some n => decide (r.lineNum < n)
      | none => false) ||
    stepViol r.path (some r.lineNum) rest

/-- Spec-side characterization of a sort-order violation: some adjacent
pair shares a path and has a strictly decreasing line number. -/
def hasOrderViolation : List SearchResultLine → Bool
  | [] => false
  | [_] => false
  | a :: b :: t =>
    ((b.path == a.path) && decide (b.lineNum < a.lineNum)) || hasOrderViolation (b :: t)

/-- Loop invariant of `buildHunksForFlag` for the range-disjointness
claims: hunk ranges are separated and their starts strictly increase
along the list, every hunk covers at least its starting line, the last
hunk's text equals the string builder, and its range ends at or before
`lastSeenLineNum` (which is -1 while no hunk exists). -/
def HunkChainInv (st : BuildState) : Prop :=
  List.Chain' (fun a b => hunkEnd a < b.startingLineNumber ∧
    a.startingLineNumber < b.startingLineNumber) st.hunks ∧
  (∀ h ∈ st.hunks, h.startingLineNumber ≤ hunkEnd h) ∧
  (match st.hunks.getLast? with
   | none => st.lastSeenLineNum = -1
   | some h => h.lines = st.builder ∧ hunkEnd h ≤ st.lastSeenLineNum)

/-! ## Concrete inputs used by witnesses and counterexamples -/

/-- A four-line contiguous file with the flag on lines 1 and 3 and an
alias recorded on line 3. -/
def exLines : List SearchResultLine :=
  [{ path := "a.go", lineNum := 1, lineText := "L1", flagKeys := [("flag-a", [])] },
   { path := "a.go", lineNum := 2, lineText := "L2", flagKeys := [] },
   { path := "a.go", lineNum := 3, lineText := "L3", flagKeys := [("flag-a", ["aliasA"])] },
   { path := "a.go", lineNum := 4, lineText := "L4", flagKeys := [] }]

/-- A sorted but non-contiguous file: line numbers 1, 2 and 100, with
the flag on line 100. -/
def exGapLines : List SearchResultLine :=
  [{ path := "a.go", lineNum := 1, lineText := "L1", flagKeys := [] },
   { path := "a.go", lineNum := 2, lineText := "L2", flagKeys := [] },
   { path := "a.go", lineNum := 100, lineText := "L100", flagKeys := [("flag-a", [])] }]

/-- A 501-character line: a two-byte character follows with 500 ASCII
characters, so the byte length is 502 while the rune-safe 500-byte
cut and the 500-rune cut differ. -/
def exC4Line : String :=
  String.mk ('é' :: (List.replicate 499 'a' ++ ['b']))

/-- A concrete branch with no search results. -/
def exBranch : Branch :=
  { name := "refs/heads/main", head := "abc123", updateSequenceId := none,
    syncTime := 0, searchResults := [] }

/-!
## Theorems
-/

/-- C10: the submitted BranchReport carries an updateSequenceId exactly
when the configured value is at least 0; 0 counts as set and is
transmitted; every negative value (not only the documented default of -1)
is treated as unset and the field is omitted; `makeBranchRep` passes the
computed option through unchanged into the report. -/
theorem claim_C10 (u : Int) (b : Branch) (pk : String) (c : Int) :
    ((scanUpdateId u).isSome ↔ 0 ≤ u) ∧
    scanUpdateId 0 = some 0 ∧
    (u < 0 → scanUpdateId u = none) ∧
    (∀ rep, makeBranchRep { b with updateSequenceId := scanUpdateId u } pk c = some rep →
      rep.updateSequenceId = scanUpdateId u) := by
  refine ⟨?_, by simp [scanUpdateId], ?_, ?_⟩
  · unfold scanUpdateId
    split <;> simp_all
  · intro hu
    unfold scanUpdateId
    split
    · omega
    · rfl
  · intro rep hrep
    unfold makeBranchRep at hrep
    rw [Option.map_eq_some'] at hrep
    obtain ⟨refs, -, hrep⟩ := hrep
    subst hrep
    rfl

/-- C10 witness: a negative value is omitted; the value 0 is transmitted
and survives into the concrete report. -/
theorem claim_C10_witness :
    ((-3 : Int) < 0 ∧ scanUpdateId (-3) = none) ∧
    (∃ rep, makeBranchRep { exBranch with updateSequenceId := scanUpdateId 0 } "p" 2 = some rep ∧
      rep.updateSequenceId = scanUpdateId 0) := by
  refine ⟨⟨by decide, (claim_C10 (-3) exBranch "p" 2).2.2.1 (by decide)⟩, ?_⟩
  refine ⟨{ name := "main", head := "abc123", updateSequenceId := some 0,
            syncTime := 0, references := [] }, by decide, ?_⟩
  exact (claim_C10 0 exBranch "p" 2).2.2.2 _ (by decide)

/-- C5: a 409 on the branch PUT (update-sequence conflict) logs a warning
(when an updateSequenceId was submitted), is treated as success, still
reaches the pruning phase, and — when pruning succeeds — the run exits 0;
the 409 is never escalated to a fatal error (the exit code depends only
on the pruning phase). -/
theorem claim_C5 (updateIdSet ignore : Bool) (prune : PruneOutcome) :
    putBranchErrorOfStatus 409 = some .branchUpdateSequenceIdConflict ∧
    (scanSubmitTail (putBranchErrorOfStatus 409) updateIdSet ignore prune).pruneAttempted = true ∧
    (updateIdSet = true →
      (scanSubmitTail (putBranchErrorOfStatus 409) updateIdSet ignore prune).warnedConflict = true) ∧
    (scanSubmitTail (putBranchErrorOfStatus 409) updateIdSet ignore prune).exitCode =
      pruneExit ignore prune ∧
    (prune = .success →
      (scanSubmitTail (putBranchErrorOfStatus 409) updateIdSet ignore prune).exitCode = 0) := by
  refine ⟨rfl, rfl, fun h => by simp [scanSubmitTail, putBranchErrorOfStatus, h], rfl, ?_⟩
  rintro rfl
  rfl

/-- C5 witness: with an updateSequenceId submitted and pruning
succeeding, a 409 warns, prunes and exits 0. -/
theorem claim_C5_witness :
    (true = true ∧ PruneOutcome.success = PruneOutcome.success) ∧
    (scanSubmitTail (putBranchErrorOfStatus 409) true false .success).pruneAttempted = true ∧
    (scanSubmitTail (putBranchErrorOfStatus 409) true false .success).warnedConflict = true ∧
    (scanSubmitTail (putBranchErrorOfStatus 409) true false .success).exitCode = 0 := by
  obtain ⟨-, h1, h2, -, h4⟩ := claim_C5 true false .success
  exact ⟨⟨rfl, rfl⟩, h1, h2 rfl, h4 rfl⟩

/-! ### C8: the fatal out-of-order check of `addSearchResult` -/

theorem foldl_addFlagReference_lines (l : List (String × List String)) (i : Nat) :
    ∀ f : FileSearchResults,
      (l.foldl (fun f p => addFlagReference f p.1 i) f).fileSearchResultLines =
        f.fileSearchResultLines ∧
      (l.foldl (fun f p => addFlagReference f p.1 i) f).path = f.path := by
  induction l with
  | nil => intro f; exact ⟨rfl, rfl⟩
  | cons p t ih =>
    intro f
    simpa [addFlagReference] using ih { f with flagReferenceMap := insertFlagRef f.flagReferenceMap p.1 i }

theorem aggregateStep_isNone (l : List SearchResultLine) :
    ∀ (cur : FileSearchResults) (acc : List FileSearchResults),
      (aggregateStep cur acc l).isNone =
        stepViol cur.path (cur.fileSearchResultLines.getLast?.map (fun x => x.lineNum)) l := by
  induction l with
  | nil => intro cur acc; simp [aggregateStep, stepViol]
  | cons r rest ih =>
    intro cur acc
    cases hpath : (r.path == cur.path) with
    | true =>
      have hpeq : r.path = cur.path := by simpa using hpath
      cases hlast : cur.fileSearchResultLines.getLast? with
      | none =>
        simp only [aggregateStep, hpath, reduceIte, addSearchResult, hlast]
        rw [ih]
        rw [(foldl_addFlagReference_lines r.flagKeys cur.fileSearchResultLines.length _).1,
          (foldl_addFlagReference_lines r.flagKeys cur.fileSearchResultLines.length _).2]
        simp [stepViol, hpath, hlast, hpeq, List.getLast?_concat]
      | some prev =>
        by_cases hlt : r.lineNum < prev.lineNum
        · simp only [aggregateStep, hpath, reduceIte, addSearchResult, hlast, if_pos hlt]
          simp [stepViol, hpath, hlast, hlt]
        · simp only [aggregateStep, hpath, reduceIte, addSearchResult, hlast, if_neg hlt]
          rw [ih]
          rw [(foldl_addFlagReference_lines r.flagKeys cur.fileSearchResultLines.length _).1,
            (foldl_addFlagReference_lines r.flagKeys cur.fileSearchResultLines.length _).2]
          simp [stepViol, hpath, hlast, hlt, hpeq, List.getLast?_concat]
    | false =>
      simp only [aggregateStep, hpath, Bool.false_eq_true, reduceIte, addSearchResult, emptyFSR,
        List.getLast?_nil, List.nil_append, List.length_nil]
      rw [ih]
      rw [(foldl_addFlagReference_lines r.flagKeys 0 _).1,
        (foldl_addFlagReference_lines r.flagKeys 0 _).2]
      simp [stepViol, hpath]

theorem stepViol_eq_hasOrderViolation (rest : List SearchResultLine) :
    ∀ r : SearchResultLine, stepViol r.path (some r.lineNum) rest = hasOrderViolation (r :: rest) := by
  induction rest with
  | nil => intro r; rfl
  | cons b t ih =>
    intro r
    unfold stepViol hasOrderViolation
    rw [ih b]

theorem hasOrderViolation_iff (l : List SearchResultLine) :
    hasOrderViolation l = true ↔
      ∃ l1 a b l2, l = l1 ++ a :: b :: l2 ∧ a.path = b.path ∧ b.lineNum < a.lineNum := by
  induction l with
  | nil =>
    simp only [hasOrderViolation]
    constructor
    · intro h; cases h
    · rintro ⟨l1, a, b, l2, h, -, -⟩
      exact absurd h (by simp)
  | cons x xs ih =>
    cases xs with
    | nil =>
      simp only [hasOrderViolation]
      constructor
      · intro h; cases h
      · rintro ⟨l1, a, b, l2, h, -, -⟩
        rcases l1 with - | ⟨c, l1⟩ <;> simp_all
    | cons y ys =>
      unfold hasOrderViolation
      rw [Bool.or_eq_true]
      constructor
      · rintro (hc | hr)
        · refine ⟨[], x, y, ys, rfl, ?_, ?_⟩
          · have h2 := (Bool.and_eq_true _ _).mp hc
            have : y.path = x.path := by simpa using h2.1
            exact this.symm
          · have h2 := (Bool.and_eq_true _ _).mp hc
            exact of_decide_eq_true h2.2
        · obtain ⟨l1, a, b, l2, heq, hp, hn⟩ := ih.mp hr
          exact ⟨x :: l1, a, b, l2, by rw [heq, List.cons_append], hp, hn⟩
      · rintro ⟨l1, a, b, l2, heq, hp, hn⟩
        rcases l1 with - | ⟨c, l1⟩
        · left
          obtain ⟨rfl, rfl, -⟩ : x = a ∧ y = b ∧ ys = l2 := by
            simpa using heq
          simp [hp.symm, hn]
        · right
          injection heq with h1 h2
          exact ih.mpr ⟨l1, a, b, l2, h2, hp, hn⟩

/-! ### Basic lemmas about the hunker's building blocks -/

theorem dedupe_foldl_nodup (xs : List String) :
    ∀ acc : List String, acc.Nodup →
      (xs.foldl (fun acc x => if x ∈ acc then acc else acc ++ [x]) acc).Nodup := by
  induction xs with
  | nil => intro acc h; exact h
  | cons x t ih =>
    intro acc h
    by_cases hx : x ∈ acc
    · simpa [hx] using ih acc h
    · have : (acc ++ [x]).Nodup := by
        simp [List.nodup_append, h, hx]
      simpa [hx] using ih (acc ++ [x]) this

theorem dedupe_foldl_subset (xs : List String) :
    ∀ (acc : List String) (a : String),
      a ∈ xs.foldl (fun acc x => if x ∈ acc then acc else acc ++ [x]) acc →
      a ∈ acc ∨ a ∈ xs := by
  induction xs with
  | nil => intro acc a h; exact Or.inl h
  | cons x t ih =>
    intro acc a h
    rw [List.foldl_cons] at h
    by_cases hx : x ∈ acc
    · rw [if_pos hx] at h
      rcases ih acc a h with h' | h'
      · exact Or.inl h'
      · exact Or.inr (by simp [h'])
    · rw [if_neg hx] at h
      rcases ih (acc ++ [x]) a h with h' | h'
      · rcases List.mem_append.mp h' with h'' | h''
        · exact Or.inl h''
        · exact Or.inr (by simpa using Or.inl (by simpa using h''))
      · exact Or.inr (by simp [h'])

theorem dedupe_nodup (xs : List String) : (dedupe xs).Nodup :=
  dedupe_foldl_nodup xs [] List.nodup_nil

theorem mem_of_mem_dedupe {xs : List String} {a : String} (h : a ∈ dedupe xs) : a ∈ xs := by
  rcases dedupe_foldl_subset xs [] a h with h' | h'
  · cases h'
  · exact h'

theorem setLastLines_aliases (s : String) :
    ∀ (hs : List HunkRep), ∀ h' ∈ setLastLines hs s,
      ∃ h ∈ hs, h'.aliases = h.aliases ∧ h'.startingLineNumber = h.startingLineNumber := by
  intro hs
  induction hs with
  | nil => intro h' h; cases h
  | cons a t ih =>
    intro h' hmem
    cases t with
    | nil =>
      simp only [setLastLines, List.mem_singleton] at hmem
      exact ⟨a, by simp, by rw [hmem], by rw [hmem]⟩
    | cons b t' =>
      simp only [setLastLines, List.mem_cons] at hmem
      rcases hmem with rfl | hmem
      · exact ⟨h', by simp, rfl, rfl⟩
      · obtain ⟨h, hh, he⟩ := ih h' hmem
        exact ⟨h, by simp [List.mem_cons.mp hh], he⟩

theorem seekBack_fst (lines : List SearchResultLine) (lastSeen : Int) :
    ∀ (k p n : Nat) (a : Bool),
      (seekBack lines lastSeen k (p, n, a)).1 = p - min k p := by
  intro k
  induction k with
  | zero => intro p n a; simp [seekBack]
  | succ k ih =>
    intro p n a
    by_cases hp : 0 < p
    · simp only [seekBack, if_pos hp]
      rw [ih]
      omega
    · simp only [seekBack, if_neg hp]
      rw [ih]
      omega

theorem seekBack_snd (lines : List SearchResultLine) (lastSeen : Int) :
    ∀ (k p n : Nat) (a : Bool),
      (seekBack lines lastSeen k (p, n, a)).2.1 = n + min k p := by
  intro k
  induction k with
  | zero => intro p n a; simp [seekBack]
  | succ k ih =>
    intro p n a
    by_cases hp : 0 < p
    · simp only [seekBack, if_pos hp]
      rw [ih]
      omega
    · simp only [seekBack, if_neg hp]
      rw [ih]
      omega

theorem walkForward_ptr_lt (lines : List SearchResultLine) (flag : String) :
    ∀ (steps : Nat) (st : WalkState), st.ptr < lines.length →
      (walkForward lines flag steps st).ptr < lines.length := by
  intro steps
  induction steps with
  | zero => intro st h; exact h
  | succ k ih =>
    intro st h
    apply ih
    dsimp only
    split <;> split <;> simp_all

theorem walkForward_aliases (lines : List SearchResultLine) (flag : String) :
    ∀ (steps : Nat) (st : WalkState), st.ptr < lines.length →
      ∀ a ∈ (walkForward lines flag steps st).curAliases,
        a ∈ st.curAliases ∨
          ∃ i < lines.length, a ∈ lookupFlag (lineAt lines i).flagKeys flag := by
  intro steps
  induction steps with
  | zero => intro st _ a h; exact Or.inl h
  | succ k ih =>
    intro st hp a h
    simp only [walkForward] at h
    by_cases hw : st.lastSeen < (lineAt lines st.ptr).lineNum
    · by_cases hnext : st.ptr + 1 < lines.length
      · rw [if_pos hw, if_pos hnext] at h
        rcases ih _ (by exact hnext) a h with h' | h'
        · change a ∈ st.curAliases ++ lookupFlag (lineAt lines st.ptr).flagKeys flag at h'
          rcases List.mem_append.mp h' with h'' | h''
          · exact Or.inl h''
          · exact Or.inr ⟨st.ptr, hp, h''⟩
        · exact Or.inr h'
      · rw [if_pos hw, if_neg hnext] at h
        rcases ih _ (by exact hp) a h with h' | h'
        · change a ∈ st.curAliases ++ lookupFlag (lineAt lines st.ptr).flagKeys flag at h'
          rcases List.mem_append.mp h' with h'' | h''
          · exact Or.inl h''
          · exact Or.inr ⟨st.ptr, hp, h''⟩
        · exact Or.inr h'
    · by_cases hnext : st.ptr + 1 < lines.length
      · rw [if_neg hw, if_pos hnext] at h
        rcases ih _ (by exact hnext) a h with h' | h'
        · exact Or.inl h'
        · exact Or.inr h'
      · rw [if_neg hw, if_neg hnext] at h
        rcases ih _ (by exact hp) a h with h' | h'
        · exact Or.inl h'
        · exact Or.inr h'

/-! ### Newline counting and the backward-seek overlap flag -/

theorem countNL_append (a b : String) : countNL (a ++ b) = countNL a + countNL b := by
  show (a ++ b).data.count '\n' = _
  rw [String.data_append, List.count_append]
  rfl

theorem countNL_truncate (s : String) (h : '\n' ∉ s.data) :
    countNL (truncateLineNoPanic s) = 0 := by
  unfold truncateLineNoPanic countNL
  split
  · rw [String.data_append, List.count_append]
    have h1 : (String.mk (s.data.take maxLineCharCount)).data.count '\n' = 0 := by
      apply List.count_eq_zero.mpr
      intro hmem
      exact h (List.take_subset _ _ hmem)
    have h2 : ("…" : String).data.count '\n' = 0 := by decide
    rw [h1, h2]
  · exact List.count_eq_zero.mpr h

theorem countNL_write (b s : String) (h : '\n' ∉ s.data) :
    countNL (b ++ truncateLineNoPanic s ++ "\n") = countNL b + 1 := by
  rw [countNL_append, countNL_append, countNL_truncate s h]
  have : countNL "\n" = 1 := by decide
  rw [this]

theorem noNewlines_total (lines : List SearchResultLine) (hn : NoNewlines lines) :
    ∀ i, '\n' ∉ (lineAt lines i).lineText.data := by
  intro i
  by_cases hi : i < lines.length
  · exact hn i hi
  · rw [lineAt, List.getD_eq_default _ _ (by omega)]
    intro hmem
    cases hmem

theorem lineNumAt_mono (lines : List SearchResultLine) (hs : LinesSorted lines)
    {i j : Nat} (hij : i ≤ j) (hj : j < lines.length) :
    lineNumAt lines i ≤ lineNumAt lines j := by
  rcases Nat.lt_or_ge i j with h | h
  · exact le_of_lt (hs i (by omega) j hj h)
  · have : i = j := by omega
    rw [this]

theorem seekBack_ap (lines : List SearchResultLine) (lastSeen : Int)
    (hs : LinesSorted lines) :
    ∀ (k p n : Nat) (a : Bool), p < lines.length →
      (seekBack lines lastSeen k (p, n, a)).2.2 =
        (a || (decide (1 ≤ k) && decide (lineNumAt lines (p - min k p) ≤ lastSeen))) := by
  intro k
  induction k with
  | zero => intro p n a _; simp [seekBack]
  | succ k ih =>
    intro p n a hp
    by_cases hmem : 0 < p
    · simp only [seekBack, if_pos hmem]
      rw [ih (p - 1) (n + 1) (a || decide (lineNumAt lines (p - 1) ≤ lastSeen)) (by omega)]
      have harith : p - 1 - min k (p - 1) = p - min (k + 1) p := by omega
      rw [harith]
      have habs : decide (lineNumAt lines (p - 1) ≤ lastSeen) = true →
          decide (lineNumAt lines (p - min (k + 1) p) ≤ lastSeen) = true := by
        intro hd
        rw [decide_eq_true_eq] at hd ⊢
        calc lineNumAt lines (p - min (k + 1) p)
            ≤ lineNumAt lines (p - 1) := lineNumAt_mono lines hs (by omega) (by omega)
          _ ≤ lastSeen := hd
      by_cases hk : 1 ≤ k
      · cases hd : decide (lineNumAt lines (p - 1) ≤ lastSeen) with
        | true =>
          have := habs hd
          simp [this, hk, hd]
        | false =>
          simp [hd, hk]
      · have hk0 : k = 0 := by omega
        subst hk0
        have : p - min 1 p = p - 1 := by omega
        simp [this]
    · have hp0 : p = 0 := by omega
      subst hp0
      simp only [seekBack, if_neg (by omega : ¬ (0:Nat) < 0)]
      rw [ih 0 n (a || decide (lineNumAt lines 0 ≤ lastSeen)) (by omega)]
      cases hd : decide (lineNumAt lines 0 ≤ lastSeen) with
      | true => simp [hd]
      | false => simp [hd]

theorem walkForward_count (lines : List SearchResultLine) (flag : String)
    (hn : NoNewlines lines) :
    ∀ (steps : Nat) (st : WalkState), ∃ k : Nat,
      countNL (walkForward lines flag steps st).builder = countNL st.builder + k ∧
      (walkForward lines flag steps st).numHunked = st.numHunked + k ∧
      ((k = 0 ∧ (walkForward lines flag steps st).lastSeen = st.lastSeen) ∨
        (1 ≤ k ∧ st.lastSeen + (k : Int) ≤ (walkForward lines flag steps st).lastSeen)) ∧
      (1 ≤ steps → st.lastSeen < lineNumAt lines st.ptr →
        1 ≤ k ∧
        lineNumAt lines st.ptr + (k : Int) - 1 ≤ (walkForward lines flag steps st).lastSeen) := by
  intro steps
  induction steps with
  | zero =>
    intro st
    exact ⟨0, by simp [walkForward], by simp [walkForward], Or.inl ⟨rfl, by simp [walkForward]⟩,
      by omega⟩
  | succ ksteps ih =>
    intro st
    by_cases hw : st.lastSeen < (lineAt lines st.ptr).lineNum
    · have hw' : st.lastSeen < lineNumAt lines st.ptr := hw
      have hca : lineNumAt lines st.ptr = (lineAt lines st.ptr).lineNum := rfl
      by_cases hnext : st.ptr + 1 < lines.length
      · obtain ⟨k', h1, h2, h3, -⟩ := ih
          { ptr := st.ptr + 1, lastSeen := (lineAt lines st.ptr).lineNum,
            builder := st.builder ++ truncateLineNoPanic (lineAt lines st.ptr).lineText ++ "\n",
            curAliases := st.curAliases ++ lookupFlag (lineAt lines st.ptr).flagKeys flag,
            numHunked := st.numHunked + 1 }
        have heq : walkForward lines flag (ksteps + 1) st = walkForward lines flag ksteps
            { ptr := st.ptr + 1, lastSeen := (lineAt lines st.ptr).lineNum,
              builder := st.builder ++ truncateLineNoPanic (lineAt lines st.ptr).lineText ++ "\n",
              curAliases := st.curAliases ++ lookupFlag (lineAt lines st.ptr).flagKeys flag,
              numHunked := st.numHunked + 1 } := by
          simp only [walkForward]
          rw [if_pos hw, if_pos hnext]
        refine ⟨k' + 1, ?_, ?_, ?_, ?_⟩
        · rw [heq, h1]
          dsimp only
          rw [countNL_write _ _ (noNewlines_total lines hn st.ptr)]
          omega
        · rw [heq, h2]
          show st.numHunked + 1 + k' = st.numHunked + (k' + 1)
          omega
        · right
          rw [heq]
          rcases h3 with ⟨hk0, hl⟩ | ⟨hk1, hl⟩
          · refine ⟨by omega, ?_⟩
            rw [hl]
            dsimp only
            show st.lastSeen + ((k' : Int) + 1) ≤ lineNumAt lines st.ptr
            omega
          · refine ⟨by omega, ?_⟩
            dsimp only at hl
            show st.lastSeen + ((k' : Int) + 1) ≤ _
            have : st.lastSeen + 1 ≤ lineNumAt lines st.ptr := hw
            omega
        · intro _ _
          rw [heq]
          rcases h3 with ⟨hk0, hl⟩ | ⟨hk1, hl⟩
          · refine ⟨by omega, ?_⟩
            rw [hl]
            dsimp only
            show lineNumAt lines st.ptr + ((k' : Int) + 1) - 1 ≤ lineNumAt lines st.ptr
            omega
          · refine ⟨by omega, ?_⟩
            dsimp only at hl
            show lineNumAt lines st.ptr + ((k' : Int) + 1) - 1 ≤ _
            omega
      · obtain ⟨k', h1, h2, h3, -⟩ := ih
          { ptr := st.ptr, lastSeen := (lineAt lines st.ptr).lineNum,
            builder := st.builder ++ truncateLineNoPanic (lineAt lines st.ptr).lineText ++ "\n",
            curAliases := st.curAliases ++ lookupFlag (lineAt lines st.ptr).flagKeys flag,
            numHunked := st.numHunked + 1 }
        have heq : walkForward lines flag (ksteps + 1) st = walkForward lines flag ksteps
            { ptr := st.ptr, lastSeen := (lineAt lines st.ptr).lineNum,
              builder := st.builder ++ truncateLineNoPanic (lineAt lines st.ptr).lineText ++ "\n",
              curAliases := st.curAliases ++ lookupFlag (lineAt lines st.ptr).flagKeys flag,
              numHunked := st.numHunked + 1 } := by
          simp only [walkForward]
          rw [if_pos hw, if_neg hnext]
        refine ⟨k' + 1, ?_, ?_, ?_, ?_⟩
        · rw [heq, h1]
          dsimp only
          rw [countNL_write _ _ (noNewlines_total lines hn st.ptr)]
          omega
        · rw [heq, h2]
          show st.numHunked + 1 + k' = st.numHunked + (k' + 1)
          omega
        · right
          rw [heq]
          rcases h3 with ⟨hk0, hl⟩ | ⟨hk1, hl⟩
          · refine ⟨by omega, ?_⟩
            rw [hl]
            dsimp only
            show st.lastSeen + ((k' : Int) + 1) ≤ lineNumAt lines st.ptr
            omega
          · refine ⟨by omega, ?_⟩
            dsimp only at hl
            show st.lastSeen + ((k' : Int) + 1) ≤ _
            have : st.lastSeen + 1 ≤ lineNumAt lines st.ptr := hw
            omega
        · intro _ _
          rw [heq]
          rcases h3 with ⟨hk0, hl⟩ | ⟨hk1, hl⟩
          · refine ⟨by omega, ?_⟩
            rw [hl]
            dsimp only
            show lineNumAt lines st.ptr + ((k' : Int) + 1) - 1 ≤ lineNumAt lines st.ptr
            omega
          · refine ⟨by omega, ?_⟩
            dsimp only at hl
            show lineNumAt lines st.ptr + ((k' : Int) + 1) - 1 ≤ _
            omega
    · have heq : walkForward lines flag (ksteps + 1) st = walkForward lines flag ksteps
          (if st.ptr + 1 < lines.length then { st with ptr := st.ptr + 1 } else st) := by
        simp only [walkForward]
        rw [if_neg hw]
      by_cases hnext : st.ptr + 1 < lines.length
      · rw [if_pos hnext] at heq
        obtain ⟨k', h1, h2, h3, -⟩ := ih { st with ptr := st.ptr + 1 }
        refine ⟨k', ?_, ?_, ?_, ?_⟩
        · rw [heq]; exact h1
        · rw [heq]; exact h2
        · rw [heq]; exact h3
        · intro _ hlt
          exact absurd hlt hw
      · rw [if_neg hnext] at heq
        obtain ⟨k', h1, h2, h3, -⟩ := ih st
        refine ⟨k', ?_, ?_, ?_, ?_⟩
        · rw [heq]; exact h1
        · rw [heq]; exact h2
        · rw [heq]; exact h3
        · intro _ hlt
          exact absurd hlt hw

/-! ### Range disjointness machinery (C2) -/

theorem setLastLines_concat (s : String) :
    ∀ (hs : List HunkRep) (h : HunkRep),
      setLastLines (hs ++ [h]) s = hs ++ [{ h with lines := s }] := by
  intro hs
  induction hs with
  | nil => intro h; rfl
  | cons a t ih =>
    intro h
    have hstep : setLastLines ((a :: t) ++ [h]) s = a :: setLastLines (t ++ [h]) s := by
      cases t with
      | nil => rfl
      | cons b t' => rfl
    rw [hstep, ih]
    rfl

theorem countNL_empty : countNL "" = 0 := rfl

theorem processRef_HunkChainInv (pk flag : String) (lines : List SearchResultLine) (c : Int)
    (hs : LinesSorted lines) (hp : LinesPositive lines) (hn : NoNewlines lines)
    (hc : 1 ≤ c) (st : BuildState) (ref : Nat) (href : ref < lines.length)
    (hinv : HunkChainInv st) :
    HunkChainInv (processRef pk flag lines c st ref) := by
  have hk1 : 1 ≤ c.toNat := by omega
  have hfst := seekBack_fst lines st.lastSeenLineNum c.toNat ref 0 false
  have hsnd := seekBack_snd lines st.lastSeenLineNum c.toNat ref 0 false
  have hap := seekBack_ap lines st.lastSeenLineNum hs c.toNat ref 0 false href
  obtain ⟨hchain, hse, hlastblock⟩ := hinv
  simp only [processRef]
  cases hapv : (seekBack lines st.lastSeenLineNum c.toNat (ref, 0, false)).2.2 with
  | false =>
    rw [hapv, Bool.false_or] at hap
    have hgt : st.lastSeenLineNum < lineNumAt lines (ref - min c.toNat ref) := by
      by_contra hle
      push_neg at hle
      rw [decide_eq_true hk1, decide_eq_true hle, Bool.true_and] at hap
      cases hap
    have hgt2 : st.lastSeenLineNum <
        lineNumAt lines ((seekBack lines st.lastSeenLineNum c.toNat (ref, 0, false)).1) := by
      rw [hfst]
      exact hgt
    simp only [hapv, Bool.false_eq_true, reduceIte]
    obtain ⟨kw, hw1, hw2, hw3, hw4⟩ := walkForward_count lines flag hn
      (((seekBack lines st.lastSeenLineNum c.toNat (ref, 0, false)).2.1 : Int) + 1 + c).toNat
      { ptr := (seekBack lines st.lastSeenLineNum c.toNat (ref, 0, false)).1,
        lastSeen := st.lastSeenLineNum, builder := "", curAliases := [],
        numHunked := st.numHunkedLines }
    have hsteps : 1 ≤
        (((seekBack lines st.lastSeenLineNum c.toNat (ref, 0, false)).2.1 : Int) + 1 + c).toNat := by
      rw [hsnd]
      omega
    obtain ⟨hkw1, hlastle⟩ := hw4 hsteps hgt2
    have hw1' : countNL (walkForward lines flag
        (((seekBack lines st.lastSeenLineNum c.toNat (ref, 0, false)).2.1 : Int) + 1 + c).toNat
        { ptr := (seekBack lines st.lastSeenLineNum c.toNat (ref, 0, false)).1,
          lastSeen := st.lastSeenLineNum, builder := "", curAliases := [],
          numHunked := st.numHunkedLines }).builder = kw := by
      rw [hw1, countNL_empty]
      omega
    have hll : lineNumAt lines ((seekBack lines st.lastSeenLineNum c.toNat (ref, 0, false)).1) +
        (kw : Int) - 1 ≤ (walkForward lines flag
        (((seekBack lines st.lastSeenLineNum c.toNat (ref, 0, false)).2.1 : Int) + 1 + c).toNat
        { ptr := (seekBack lines st.lastSeenLineNum c.toNat (ref, 0, false)).1,
          lastSeen := st.lastSeenLineNum, builder := "", curAliases := [],
          numHunked := st.numHunkedLines }).lastSeen := hlastle
    refine ⟨?_, ?_, ?_⟩
    · rw [List.chain'_append]
      refine ⟨hchain, List.chain'_singleton _, ?_⟩
      intro x hx y hy
      simp only [List.head?_cons, Option.mem_def, Option.some.injEq] at hy
      rw [Option.mem_def] at hx
      rw [hx] at hlastblock
      subst hy
      have hxs := hse x (List.mem_of_mem_getLast? hx)
      dsimp only
      exact ⟨by omega, by omega⟩
    · intro h hmem
      rcases List.mem_append.mp hmem with hmem' | hmem'
      · exact hse h hmem'
      · rw [List.mem_singleton] at hmem'
        subst hmem'
        unfold hunkEnd
        dsimp only
        rw [hw1']
        omega
    · rw [List.getLast?_concat]
      refine ⟨rfl, ?_⟩
      unfold hunkEnd
      dsimp only
      rw [hw1']
      omega
  | true =>
    rw [hapv] at hap
    have hle : lineNumAt lines (ref - min c.toNat ref) ≤ st.lastSeenLineNum := by
      have h1 := hap.symm
      rw [Bool.false_or, Bool.and_eq_true, decide_eq_true_eq, decide_eq_true_eq] at h1
      exact h1.2
    have hL1 : 1 ≤ st.lastSeenLineNum :=
      le_trans (hp (ref - min c.toNat ref) (by omega)) hle
    rcases List.eq_nil_or_concat st.hunks with hnil | ⟨hs', hl, hconcat⟩
    · rw [hnil] at hlastblock
      simp only [List.getLast?_nil] at hlastblock
      omega
    · rw [List.concat_eq_append] at hconcat
      rw [hconcat] at hchain hse hlastblock
      rw [List.getLast?_concat] at hlastblock
      obtain ⟨hllines, hlend⟩ := hlastblock
      simp only [hapv, reduceIte]
      obtain ⟨kw, hw1, hw2, hw3, -⟩ := walkForward_count lines flag hn
        (((seekBack lines st.lastSeenLineNum c.toNat (ref, 0, false)).2.1 : Int) + 1 + c).toNat
        { ptr := (seekBack lines st.lastSeenLineNum c.toNat (ref, 0, false)).1,
          lastSeen := st.lastSeenLineNum, builder := st.builder,
          curAliases := st.curAliases, numHunked := st.numHunkedLines }
      have hw1' : countNL ((walkForward lines flag
          (((seekBack lines st.lastSeenLineNum c.toNat (ref, 0, false)).2.1 : Int) + 1 + c).toNat
          { ptr := (seekBack lines st.lastSeenLineNum c.toNat (ref, 0, false)).1,
            lastSeen := st.lastSeenLineNum, builder := st.builder,
            curAliases := st.curAliases, numHunked := st.numHunkedLines }).builder) =
          countNL st.builder + kw := hw1
      have hw3' : (kw = 0 ∧ (walkForward lines flag
          (((seekBack lines st.lastSeenLineNum c.toNat (ref, 0, false)).2.1 : Int) + 1 + c).toNat
          { ptr := (seekBack lines st.lastSeenLineNum c.toNat (ref, 0, false)).1,
            lastSeen := st.lastSeenLineNum, builder := st.builder,
            curAliases := st.curAliases, numHunked := st.numHunkedLines }).lastSeen =
            st.lastSeenLineNum) ∨
          (1 ≤ kw ∧ st.lastSeenLineNum + (kw : Int) ≤ (walkForward lines flag
          (((seekBack lines st.lastSeenLineNum c.toNat (ref, 0, false)).2.1 : Int) + 1 + c).toNat
          { ptr := (seekBack lines st.lastSeenLineNum c.toNat (ref, 0, false)).1,
            lastSeen := st.lastSeenLineNum, builder := st.builder,
            curAliases := st.curAliases, numHunked := st.numHunkedLines }).lastSeen) := hw3
      rw [hconcat, setLastLines_concat]
      have hendeq : countNL hl.lines = countNL st.builder := by rw [hllines]
      rw [List.chain'_append] at hchain
      obtain ⟨hch1, -, hchrel⟩ := hchain
      refine ⟨?_, ?_, ?_⟩
      · rw [List.chain'_append]
        refine ⟨hch1, List.chain'_singleton _, ?_⟩
        intro x hx y hy
        simp only [List.head?_cons, Option.mem_def, Option.some.injEq] at hy
        subst hy
        have := hchrel x hx hl (by simp)
        unfold hunkEnd at this ⊢
        dsimp only
        exact ⟨by omega, by omega⟩
      · intro h hmem
        rcases List.mem_append.mp hmem with hmem' | hmem'
        · exact hse h (by simp [hmem'])
        · rw [List.mem_singleton] at hmem'
          subst hmem'
          have hsel := hse hl (by simp)
          unfold hunkEnd at hsel ⊢
          dsimp only
          rw [hw1']
          omega
      · rw [List.getLast?_concat]
        refine ⟨rfl, ?_⟩
        unfold hunkEnd at hlend ⊢
        dsimp only
        rw [hw1']
        rcases hw3' with ⟨hkw0, hlast⟩ | ⟨hkw1, hlast⟩
        · rw [hlast]
          omega
        · omega

theorem buildHunksGo_chain_pos (pk flag : String) (lines : List SearchResultLine) (c : Int)
    (hs : LinesSorted lines) (hp : LinesPositive lines) (hn : NoNewlines lines)
    (hc : 1 ≤ c) :
    ∀ (refs : List Nat) (st : BuildState), (∀ r ∈ refs, r < lines.length) →
      HunkChainInv st →
      List.Chain' (fun a b => hunkEnd a < b.startingLineNumber ∧
        a.startingLineNumber < b.startingLineNumber)
        (buildHunksGo pk flag lines c st refs) := by
  intro refs
  induction refs with
  | nil => intro st _ hinv; exact hinv.1
  | cons r rs ih =>
    intro st hrefs hinv
    have hinv' := processRef_HunkChainInv pk flag lines c hs hp hn hc st r
      (hrefs r (by simp)) hinv
    simp only [buildHunksGo]
    split
    · exact hinv'.1
    · exact ih _ (fun x hx => hrefs x (by simp [hx])) hinv'

theorem walkForward_one_write (lines : List SearchResultLine) (flag : String)
    (st : WalkState) (hw : st.lastSeen < (lineAt lines st.ptr).lineNum) :
    (walkForward lines flag 1 st).lastSeen = (lineAt lines st.ptr).lineNum ∧
    (walkForward lines flag 1 st).builder =
      st.builder ++ truncateLineNoPanic (lineAt lines st.ptr).lineText ++ "\n" ∧
    (walkForward lines flag 1 st).curAliases =
      st.curAliases ++ lookupFlag (lineAt lines st.ptr).flagKeys flag ∧
    (walkForward lines flag 1 st).numHunked = st.numHunked + 1 := by
  show ((fun s => walkForward lines flag 0 s) _).lastSeen = _ ∧ _
  simp only [walkForward]
  rw [if_pos hw]
  split <;> exact ⟨rfl, rfl, rfl, rfl⟩

theorem processRef_zero_inv (pk flag : String) (lines : List SearchResultLine)
    (hn : NoNewlines lines) (st : BuildState) (ref : Nat) (_href : ref < lines.length)
    (hlt : st.lastSeenLineNum < lineNumAt lines ref) (hinv : HunkChainInv st) :
    HunkChainInv (processRef pk flag lines 0 st ref) ∧
    (processRef pk flag lines 0 st ref).lastSeenLineNum = lineNumAt lines ref ∧
    (processRef pk flag lines 0 st ref).numHunkedLines = st.numHunkedLines + 1 := by
  obtain ⟨hchain, hse, hlastblock⟩ := hinv
  have hca : lineNumAt lines ref = (lineAt lines ref).lineNum := rfl
  have hsteps : (((0 : Nat) : Int) + 1 + 0).toNat = 1 := by norm_num
  simp only [processRef, Int.toNat_zero, seekBack, hsteps]
  simp only [Bool.false_eq_true, reduceIte]
  obtain ⟨hw1, hw2, hw3, hw4⟩ := walkForward_one_write lines flag
    { ptr := ref, lastSeen := st.lastSeenLineNum, builder := "", curAliases := [],
      numHunked := st.numHunkedLines } hlt
  rw [hw1, hw2, hw3, hw4]
  dsimp only
  have hcnt : countNL ("" ++ truncateLineNoPanic (lineAt lines ref).lineText ++ "\n") = 1 := by
    rw [countNL_write _ _ (noNewlines_total lines hn ref), countNL_empty]
  refine ⟨⟨?_, ?_, ?_⟩, rfl, rfl⟩
  · rw [List.chain'_append]
    refine ⟨hchain, List.chain'_singleton _, ?_⟩
    intro x hx y hy
    simp only [List.head?_cons, Option.mem_def, Option.some.injEq] at hy
    rw [Option.mem_def] at hx
    rw [hx] at hlastblock
    subst hy
    have hxs := hse x (List.mem_of_mem_getLast? hx)
    exact ⟨by dsimp only; omega, by dsimp only; omega⟩
  · intro h hmem
    rcases List.mem_append.mp hmem with hmem' | hmem'
    · exact hse h hmem'
    · rw [List.mem_singleton] at hmem'
      subst hmem'
      unfold hunkEnd
      dsimp only
      rw [hcnt]
      omega
  · rw [List.getLast?_concat]
    refine ⟨rfl, ?_⟩
    unfold hunkEnd
    dsimp only
    rw [hcnt]
    omega

theorem buildHunksGo_chain_zero (pk flag : String) (lines : List SearchResultLine)
    (hs : LinesSorted lines) (hn : NoNewlines lines) :
    ∀ (refs : List Nat) (st : BuildState), (∀ r ∈ refs, r < lines.length) →
      List.Pairwise (· < ·) refs →
      HunkChainInv st → (∀ r ∈ refs, st.lastSeenLineNum < lineNumAt lines r) →
      List.Chain' (fun a b => hunkEnd a < b.startingLineNumber ∧
        a.startingLineNumber < b.startingLineNumber)
        (buildHunksGo pk flag lines 0 st refs) := by
  intro refs
  induction refs with
  | nil => intro st _ _ hinv _; exact hinv.1
  | cons r rs ih =>
    intro st hrefs hpw hinv hfut
    obtain ⟨hinv', hlast', hnum'⟩ := processRef_zero_inv pk flag lines hn st r
      (hrefs r (by simp)) (hfut r (by simp)) hinv
    simp only [buildHunksGo]
    split
    · exact hinv'.1
    · apply ih _ (fun x hx => hrefs x (by simp [hx])) (List.Pairwise.sublist (by simp) hpw) hinv'
      intro r' hr'
      rw [hlast']
      have hrr : r < r' := (List.pairwise_cons.mp hpw).1 r' hr'
      exact hs r (hrefs r (by simp)) r' (hrefs r' (by simp [hr'])) hrr

theorem processRef_neg_eq (pk flag : String) (lines : List SearchResultLine) (c : Int)
    (hcneg : c ≤ -1) (st : BuildState) (ref : Nat) :
    processRef pk flag lines c st ref =
      { hunks := st.hunks ++ [⟨pk, flag, lineNumAt lines ref, "", []⟩]
        lastSeenLineNum := st.lastSeenLineNum
        builder := ""
        curStart := lineNumAt lines ref
        curAliases := []
        numHunkedLines := st.numHunkedLines } := by
  have h0 : c.toNat = 0 := by omega
  have hsteps : (((0 : Nat) : Int) + 1 + c).toNat = 0 := by omega
  simp only [processRef, h0, seekBack, hsteps]
  simp only [Bool.false_eq_true, reduceIte]
  rfl

theorem buildHunksGo_chain_neg (pk flag : String) (lines : List SearchResultLine) (c : Int)
    (hcneg : c ≤ -1) (hs : LinesSorted lines) :
    ∀ (refs : List Nat) (st : BuildState), (∀ r ∈ refs, r < lines.length) →
      List.Pairwise (· < ·) refs →
      st.numHunkedLines ≤ maxHunkedLinesPerFileAndFlagCount →
      (∀ h ∈ st.hunks, h.lines = "") →
      List.Chain' (fun a b => hunkEnd a < b.startingLineNumber ∧
        a.startingLineNumber < b.startingLineNumber) st.hunks →
      (∀ h ∈ st.hunks, ∀ r ∈ refs, h.startingLineNumber < lineNumAt lines r) →
      List.Chain' (fun a b => hunkEnd a < b.startingLineNumber ∧
        a.startingLineNumber < b.startingLineNumber)
        (buildHunksGo pk flag lines c st refs) := by
  intro refs
  induction refs with
  | nil =>
    intro st _ _ _ _ hchain _
    exact hchain
  | cons r rs ih =>
    intro st hrefs hpw hcap hempty hchain hfut
    unfold buildHunksGo
    rw [processRef_neg_eq pk flag lines c hcneg st r]
    dsimp only
    rw [if_neg (by
      show ¬ (maxHunkedLinesPerFileAndFlagCount < st.numHunkedLines)
      omega)]
    apply ih
    · exact fun x hx => hrefs x (by simp [hx])
    · exact List.Pairwise.sublist (by simp) hpw
    · exact hcap
    · intro h hmem
      rcases List.mem_append.mp hmem with hmem' | hmem'
      · exact hempty h hmem'
      · rw [List.mem_singleton] at hmem'
        rw [hmem']
    · rw [List.chain'_append]
      refine ⟨hchain, List.chain'_singleton _, ?_⟩
      intro x hx y hy
      simp only [List.head?_cons, Option.mem_def, Option.some.injEq] at hy
      subst hy
      have hxmem := List.mem_of_mem_getLast? (Option.mem_def.mp hx)
      have hxfut := hfut x hxmem r (by simp)
      have hxe : hunkEnd x = x.startingLineNumber - 1 := by
        unfold hunkEnd
        rw [hempty x hxmem, countNL_empty]
        omega
      exact ⟨by dsimp only; omega, by dsimp only; omega⟩
    · intro h hmem r' hr'
      rcases List.mem_append.mp hmem with hmem' | hmem'
      · exact hfut h hmem' r' (by simp [hr'])
      · rw [List.mem_singleton] at hmem'
        subst hmem'
        dsimp only
        have hrr : r < r' := (List.pairwise_cons.mp hpw).1 r' hr'
        exact hs r (hrefs r (by simp)) r' (hrefs r' (by simp [hr'])) hrr

theorem hunkChainInv_init : HunkChainInv initBuildState := by
  refine ⟨List.chain'_nil, ?_, rfl⟩
  intro h hmem
  cases hmem

/-- C2: for every strictly sorted input file (the driver collapses
multiple matches of one line into one record), positive line numbers,
newline-free line texts, strictly increasing in-bounds reference
positions, and *every* contextLines value, the hunks emitted for one
(file, flag) have pairwise disjoint line ranges (each earlier hunk ends
strictly before each later hunk starts) and strictly increasing
`startingLineNumber`. -/
theorem claim_C2 (pk flag path : String) (lines : List SearchResultLine) (refs : List Nat)
    (c : Int) (hs : LinesSorted lines) (hp : LinesPositive lines) (hn : NoNewlines lines)
    (hr : RefsOK lines refs) :
    List.Pairwise (fun a b => hunkEnd a < b.startingLineNumber ∧
      a.startingLineNumber < b.startingLineNumber)
      (buildHunksForFlag pk flag path lines refs c) := by
  obtain ⟨hpw, hbound⟩ := hr
  have hchain : List.Chain' (fun a b => hunkEnd a < b.startingLineNumber ∧
      a.startingLineNumber < b.startingLineNumber)
      (buildHunksForFlag pk flag path lines refs c) := by
    unfold buildHunksForFlag
    rcases lt_trichotomy c 0 with hneg | hzero | hpos
    · refine buildHunksGo_chain_neg pk flag lines c (by omega) hs refs initBuildState hbound hpw
        (by norm_num [initBuildState, maxHunkedLinesPerFileAndFlagCount]) ?_ List.chain'_nil ?_
      · intro h hmem
        cases hmem
      · intro h hmem
        cases hmem
    · subst hzero
      refine buildHunksGo_chain_zero pk flag lines hs hn refs initBuildState hbound hpw
        hunkChainInv_init ?_
      intro r hr2
      have := hp r (hbound r hr2)
      show (-1 : Int) < lineNumAt lines r
      omega
    · exact buildHunksGo_chain_pos pk flag lines c hs hp hn (by omega) refs initBuildState
        hbound hunkChainInv_init
  letI : IsTrans HunkRep (fun a b => hunkEnd a < b.startingLineNumber ∧
      a.startingLineNumber < b.startingLineNumber) :=
    ⟨fun a b c' hab hbc => ⟨lt_trans hab.1 hbc.2, lt_trans hab.2 hbc.2⟩⟩
  exact List.chain'_iff_pairwise.mp hchain

/-- C2 witness: the hypotheses hold on the concrete four-line file and
the two emitted single-line context hunks are disjoint and ordered. -/
theorem claim_C2_witness :
    (LinesSorted exLines ∧ LinesPositive exLines ∧ NoNewlines exLines ∧
      RefsOK exLines [0, 2]) ∧
    List.Pairwise (fun a b => hunkEnd a < b.startingLineNumber ∧
      a.startingLineNumber < b.startingLineNumber)
      (buildHunksForFlag "p" "flag-a" "a.go" exLines [0, 2] 0) :=
  ⟨⟨by decide, by decide, by decide, by decide⟩,
    claim_C2 "p" "flag-a" "a.go" exLines [0, 2] 0
      (by decide) (by decide) (by decide) (by decide)⟩

/-! ### C9: hunk aliases -/

theorem processRef_aliases (pk flag : String) (lines : List SearchResultLine) (c : Int)
    (st : BuildState) (ref : Nat) (href : ref < lines.length)
    (hhunks : ∀ h ∈ st.hunks, h.aliases.Nodup ∧
      ∀ a ∈ h.aliases, ∃ i < lines.length, a ∈ lookupFlag (lineAt lines i).flagKeys flag)
    (hcur : ∀ a ∈ st.curAliases,
      ∃ i < lines.length, a ∈ lookupFlag (lineAt lines i).flagKeys flag) :
    (∀ h ∈ (processRef pk flag lines c st ref).hunks, h.aliases.Nodup ∧
      ∀ a ∈ h.aliases, ∃ i < lines.length, a ∈ lookupFlag (lineAt lines i).flagKeys flag) ∧
    (∀ a ∈ (processRef pk flag lines c st ref).curAliases,
      ∃ i < lines.length, a ∈ lookupFlag (lineAt lines i).flagKeys flag) := by
  have hptr0 : (seekBack lines st.lastSeenLineNum c.toNat (ref, 0, false)).1 < lines.length := by
    rw [seekBack_fst]
    omega
  simp only [processRef]
  cases hap : (seekBack lines st.lastSeenLineNum c.toNat (ref, 0, false)).2.2 with
  | true =>
    simp only [hap, reduceIte]
    constructor
    · intro h' hmem
      obtain ⟨h, hh, hal, -⟩ := setLastLines_aliases _ st.hunks h' hmem
      rw [hal]
      exact hhunks h hh
    · intro a hmem
      rcases walkForward_aliases lines flag _ _ hptr0 a hmem with h' | h'
      · exact hcur a h'
      · exact h'
  | false =>
    simp only [hap, Bool.false_eq_true, reduceIte]
    constructor
    · intro h' hmem
      rcases List.mem_append.mp hmem with hmem' | hmem'
      · exact hhunks h' hmem'
      · rw [List.mem_singleton] at hmem'
        subst hmem'
        refine ⟨dedupe_nodup _, ?_⟩
        intro a ha
        have ha' := mem_of_mem_dedupe ha
        rcases walkForward_aliases lines flag _ _ hptr0 a ha' with h'' | h''
        · cases h''
        · exact h''
    · intro a ha
      have ha' := mem_of_mem_dedupe ha
      rcases walkForward_aliases lines flag _ _ hptr0 a ha' with h'' | h''
      · cases h''
      · exact h''

theorem buildHunksGo_aliases (pk flag : String) (lines : List SearchResultLine) (c : Int) :
    ∀ (refs : List Nat) (st : BuildState),
      (∀ r ∈ refs, r < lines.length) →
      (∀ h ∈ st.hunks, h.aliases.Nodup ∧
        ∀ a ∈ h.aliases, ∃ i < lines.length, a ∈ lookupFlag (lineAt lines i).flagKeys flag) →
      (∀ a ∈ st.curAliases,
        ∃ i < lines.length, a ∈ lookupFlag (lineAt lines i).flagKeys flag) →
      ∀ h ∈ buildHunksGo pk flag lines c st refs, h.aliases.Nodup ∧
        ∀ a ∈ h.aliases, ∃ i < lines.length, a ∈ lookupFlag (lineAt lines i).flagKeys flag := by
  intro refs
  induction refs with
  | nil => intro st _ hhunks _ h hmem; exact hhunks h hmem
  | cons r rs ih =>
    intro st hrefs hhunks hcur
    have hstep := processRef_aliases pk flag lines c st r (hrefs r (by simp)) hhunks hcur
    unfold buildHunksGo
    by_cases hcap :
        maxHunkedLinesPerFileAndFlagCount < (processRef pk flag lines c st r).numHunkedLines
    · rw [if_pos hcap]
      exact hstep.1
    · rw [if_neg hcap]
      exact ih _ (fun x hx => hrefs x (by simp [hx])) hstep.1 hstep.2

/-- C9 (amended): every emitted hunk's aliases list contains no
duplicates, and every alias in it was recorded for the hunk's flag on
some line of the file; aliases recorded on lines written while extending
an existing hunk through a later overlapping reference are dropped (the
Go code appends them to a stale local copy of the already-appended hunk),
so the list need not contain every alias recorded on the hunk's lines. -/
theorem claim_C9 (pk flag path : String) (lines : List SearchResultLine)
    (refs : List Nat) (c : Int) (href : ∀ r ∈ refs, r < lines.length) :
    ∀ h ∈ buildHunksForFlag pk flag path lines refs c,
      h.aliases.Nodup ∧
      ∀ a ∈ h.aliases, ∃ i < lines.length, a ∈ lookupFlag (lineAt lines i).flagKeys flag := by
  unfold buildHunksForFlag
  exact buildHunksGo_aliases pk flag lines c refs initBuildState href
    (by intro h hmem; cases hmem) (by intro a ha; cases ha)

/-- C9 counterexample: on the four-line file with the flag on lines 1
and 3 and alias `aliasA` recorded on line 3, context 1 merges everything
into a single hunk whose range covers line 3, yet the emitted aliases
list is empty — the alias recorded on a line written while extending the
hunk does not appear, refuting the claim. -/
theorem claim_C9_counterexample :
    (buildHunksForFlag "p" "flag-a" "a.go" exLines [0, 2] 1).length = 1 ∧
    ∀ h ∈ buildHunksForFlag "p" "flag-a" "a.go" exLines [0, 2] 1,
      h.startingLineNumber ≤ 3 ∧ (3 : Int) ≤ hunkEnd h ∧
      "aliasA" ∈ lookupFlag (lineAt exLines 2).flagKeys "flag-a" ∧
      "aliasA" ∉ h.aliases := by
  decide

/-- C9 witness: the amended theorem applied to the concrete file. -/
theorem claim_C9_witness :
    (∀ r ∈ [0, 2], r < exLines.length) ∧
    ∀ h ∈ buildHunksForFlag "p" "flag-a" "a.go" exLines [0, 2] 0,
      h.aliases.Nodup ∧
      ∀ a ∈ h.aliases, ∃ i < exLines.length,
        a ∈ lookupFlag (lineAt exLines i).flagKeys "flag-a" :=
  ⟨by decide, claim_C9 "p" "flag-a" "a.go" exLines [0, 2] 0 (by decide)⟩

/-! ### C4: line truncation -/

theorem char_utf8Size_of_ascii (c : Char) (h : c.toNat ≤ 127) : c.utf8Size = 1 := by
  unfold Char.utf8Size
  have h1 : c.val ≤ UInt32.ofNatCore 127 Char.utf8Size.proof_1 := by
    rw [UInt32.le_def]
    change c.val.toBitVec.toNat ≤ 127
    exact h
  simp only [h1, if_pos]

theorem utf8Len_of_ascii (l : List Char) (h : ∀ c ∈ l, c.toNat ≤ 127) :
    String.utf8Len l = l.length := by
  induction l with
  | nil => rfl
  | cons c t ih =>
    rw [String.utf8Len_cons, char_utf8Size_of_ascii c (h c (by simp)),
      ih (fun x hx => h x (by simp [hx])), List.length_cons]

theorem utf8ByteSize_eq_utf8Len (s : String) : s.utf8ByteSize = String.utf8Len s.data := by
  cases s
  rw [String.utf8ByteSize_mk]

/-- C4 (amended): a line of at most 500 bytes is returned unchanged. A
longer line is cut at the first 500 *runes* (not bytes) and `…` is
appended — for an all-ASCII line the two notions coincide and the output
is exactly the 500-byte prefix plus `…`, as the claim states — and a
line of more than 500 bytes but fewer than 500 runes makes the rune
slice `runes[0:500]` out of range (a runtime panic). -/
theorem claim_C4 (line : String) :
    (line.utf8ByteSize ≤ maxLineCharCount → truncateLine line = some line) ∧
    (maxLineCharCount < line.utf8ByteSize → maxLineCharCount ≤ line.data.length →
      truncateLine line = some (String.mk (line.data.take maxLineCharCount) ++ "…")) ∧
    (maxLineCharCount < line.utf8ByteSize → line.data.length < maxLineCharCount →
      truncateLine line = none) ∧
    ((∀ c ∈ line.data, c.toNat ≤ 127) → maxLineCharCount < line.utf8ByteSize →
      truncateLine line = some (String.mk (line.data.take maxLineCharCount) ++ "…") ∧
      (String.mk (line.data.take maxLineCharCount)).utf8ByteSize = maxLineCharCount) := by
  refine ⟨?_, ?_, ?_, ?_⟩
  · intro h
    unfold truncateLine
    rw [if_neg (by omega)]
  · intro h1 h2
    unfold truncateLine
    rw [if_pos h1, if_pos h2]
  · intro h1 h2
    unfold truncateLine
    rw [if_pos h1, if_neg (by omega)]
  · intro hascii h1
    have hlen : line.utf8ByteSize = line.data.length := by
      rw [utf8ByteSize_eq_utf8Len, utf8Len_of_ascii line.data hascii]
    have h2 : maxLineCharCount ≤ line.data.length := by omega
    constructor
    · unfold truncateLine
      rw [if_pos h1, if_pos h2]
    · rw [String.utf8ByteSize_mk,
        utf8Len_of_ascii _ (fun c hc => hascii c (List.take_subset _ _ hc)),
        List.length_take]
      omega

set_option maxRecDepth 40000 in
/-- C4 counterexample: on a 502-byte line whose first rune is two bytes
wide, the code does not return the 500-byte rune-safe cut followed by
`…` (as the claim states) but the 500-rune cut, which is 501 bytes
long. -/
theorem claim_C4_counterexample :
    maxLineCharCount < exC4Line.utf8ByteSize ∧
    (String.mk ('é' :: List.replicate 498 'a')).utf8ByteSize = maxLineCharCount ∧
    truncateLine exC4Line ≠ some (String.mk ('é' :: List.replicate 498 'a') ++ "…") ∧
    truncateLine exC4Line = some (String.mk ('é' :: List.replicate 499 'a') ++ "…") := by
  refine ⟨by decide, by decide, by decide, by decide⟩

set_option maxRecDepth 40000 in
/-- C4 witness: the amended theorem applied to the concrete 502-byte
line: the hypotheses hold and the output is the 500-rune cut; and on an
all-ASCII 501-byte line the output is exactly the 500-byte prefix plus
`…`. -/
theorem claim_C4_witness :
    (maxLineCharCount < exC4Line.utf8ByteSize ∧ maxLineCharCount ≤ exC4Line.data.length ∧
      truncateLine exC4Line = some (String.mk (exC4Line.data.take maxLineCharCount) ++ "…")) ∧
    ((∀ c ∈ (String.mk (List.replicate 501 'a')).data, c.toNat ≤ 127) ∧
      truncateLine (String.mk (List.replicate 501 'a')) =
        some (String.mk ((String.mk (List.replicate 501 'a')).data.take maxLineCharCount) ++ "…") ∧
      (String.mk ((String.mk (List.replicate 501 'a')).data.take maxLineCharCount)).utf8ByteSize =
        maxLineCharCount) := by
  constructor
  · exact ⟨by decide, by decide, (claim_C4 exC4Line).2.1 (by decide) (by decide)⟩
  · have h := (claim_C4 (String.mk (List.replicate 501 'a'))).2.2.2 (by decide) (by decide)
    exact ⟨by decide, h.1, h.2⟩

/-! ### C3: delimiter matching in `findReferencedFlags` -/

theorem startsWithChars_iff (key : List Char) :
    ∀ s, startsWithChars key s = true ↔ key <+: s := by
  induction key with
  | nil => intro s; simp [startsWithChars]
  | cons a as ih =>
    intro s
    cases s with
    | nil =>
      simp [startsWithChars]
    | cons b bs =>
      simp [startsWithChars, ih bs, List.cons_prefix_cons, and_comm]

theorem containsSub_iff (key : List Char) :
    ∀ s, containsSub key s = true ↔ SubOccurs key s := by
  intro s
  induction s with
  | nil =>
    simp only [containsSub, SubOccurs, List.isEmpty_iff]
    constructor
    · intro h
      exact ⟨[], [], by simp [h]⟩
    · rintro ⟨pre, post, h⟩
      have h2 := List.append_eq_nil.mp h.symm
      exact (List.append_eq_nil.mp h2.1).2
  | cons c rest ih =>
    simp only [containsSub, Bool.or_eq_true, ih, startsWithChars_iff]
    constructor
    · rintro (h | ⟨pre, post, h⟩)
      · obtain ⟨post, hpost⟩ := h
        exact ⟨[], post, by simp [hpost]⟩
      · exact ⟨c :: pre, post, by simp [h]⟩
    · rintro ⟨pre, post, h⟩
      cases pre with
      | nil =>
        left
        exact ⟨post, by simpa using h.symm⟩
      | cons x pre' =>
        right
        rw [List.cons_append, List.cons_append] at h
        injection h with h1 h2
        exact ⟨pre', post, h2⟩

theorem headDelim_iff (delims : List Char) :
    ∀ l, headDelim delims l = true ↔ ∃ e post, l = e :: post ∧ e ∈ delims := by
  intro l
  cases l with
  | nil => simp [headDelim]
  | cons e post =>
    simp only [headDelim, decide_eq_true_eq]
    constructor
    · intro h; exact ⟨e, post, rfl, h⟩
    · rintro ⟨e', post', heq, hmem⟩
      injection heq with h1 h2
      rw [h1]
      exact hmem

theorem matchDelimited_iff (delims key : List Char) :
    ∀ s, matchDelimited delims key s = true ↔ DelimitedOccurs delims key s := by
  intro s
  induction s with
  | nil =>
    simp only [matchDelimited, DelimitedOccurs]
    constructor
    · intro h; cases h
    · rintro ⟨pre, d, e, post, -, -, h⟩
      exact absurd h (by simp)
  | cons c rest ih =>
    simp only [matchDelimited, Bool.or_eq_true, Bool.and_eq_true, decide_eq_true_eq,
      startsWithChars_iff, headDelim_iff, ih]
    constructor
    · rintro (⟨⟨hc, hkey⟩, e, post, hdrop, he⟩ | ⟨pre, d, e, post, hd, he, h⟩)
      · obtain ⟨tail, htail⟩ := hkey
        subst htail
        rw [List.drop_left] at hdrop
        subst hdrop
        exact ⟨[], c, e, post, hc, he, by simp⟩
      · exact ⟨c :: pre, d, e, post, hd, he, by simp [h]⟩
    · rintro ⟨pre, d, e, post, hd, he, h⟩
      cases pre with
      | nil =>
        left
        simp only [List.nil_append] at h
        injection h with h1 h2
        subst h1
        refine ⟨⟨hd, ⟨e :: post, h2.symm⟩⟩, e, post, ?_, he⟩
        rw [h2, List.drop_left]
      | cons x pre' =>
        right
        rw [List.cons_append] at h
        injection h with h1 h2
        exact ⟨pre', d, e, post, hd, he, h2⟩

/-- C3 (amended): with a non-empty delimiter set, the *flag key* is
matched exactly when some occurrence of it in the line is immediately
surrounded by delimiter characters; an *alias*, however, is matched
whenever it occurs as a plain substring — no delimiter requirement — and
a flag is attributed when its key matched delimited or any of its
aliases matched plainly. Every entry of the returned map arises this
way. -/
theorem claim_C3 (ref delims key : String) (als : List String)
    (aliases : List (String × List String)) (hdelims : delims.data ≠ []) :
    ((findReferencedFlagsEntry ref delims key als).isSome ↔
      DelimitedOccurs delims.data key.data ref.data ∨
        ∃ a ∈ als, SubOccurs a.data ref.data) ∧
    (∀ ms, findReferencedFlagsEntry ref delims key als = some ms →
      ∀ a : String, a ∈ ms ↔ a ∈ als ∧ SubOccurs a.data ref.data) ∧
    (∀ p ∈ findReferencedFlags ref aliases delims, ∃ als',
      (p.1, als') ∈ aliases ∧ findReferencedFlagsEntry ref delims p.1 als' = some p.2) := by
  have hlen : 0 < delims.length := by
    cases hd : delims.data with
    | nil => exact absurd hd hdelims
    | cons x xs =>
      show 0 < delims.data.length
      rw [hd]
      simp
  refine ⟨?_, ?_, ?_⟩
  · unfold findReferencedFlagsEntry
    rw [if_pos hlen]
    by_cases hk : matchDelimited delims.data key.data ref.data = true
    · rw [if_pos (by simp [hk])]
      simp only [Option.isSome_some, true_iff]
      left
      exact (matchDelimited_iff delims.data key.data ref.data).mp hk
    · constructor
      · intro hsome
        rw [apply_ite Option.isSome] at hsome
        by_cases hfil : (als.filter (fun a => containsSub a.data ref.data)).isEmpty
        · rw [if_neg (by simp [hk, hfil])] at hsome
          cases hsome
        · right
          rw [List.isEmpty_iff] at hfil
          obtain ⟨a, ha⟩ := List.exists_mem_of_ne_nil _ hfil
          rw [List.mem_filter] at ha
          exact ⟨a, ha.1, (containsSub_iff a.data ref.data).mp ha.2⟩
      · rintro (h | ⟨a, hmem, hsub⟩)
        · exact absurd ((matchDelimited_iff delims.data key.data ref.data).mpr h) hk
        · have : a ∈ als.filter (fun a => containsSub a.data ref.data) := by
            rw [List.mem_filter]
            exact ⟨hmem, (containsSub_iff a.data ref.data).mpr hsub⟩
          rw [if_pos]
          · simp
          · have : ¬(als.filter (fun a => containsSub a.data ref.data)).isEmpty := by
              rw [List.isEmpty_iff]
              intro hnil
              rw [hnil] at this
              cases this
            simp [this]
  · intro ms hms a
    unfold findReferencedFlagsEntry at hms
    rw [apply_ite (fun o => o = some ms)] at hms
    by_cases hcond : ((if 0 < delims.length then matchDelimited delims.data key.data ref.data
        else containsSub key.data ref.data) ||
        !(als.filter (fun a => containsSub a.data ref.data)).isEmpty) = true
    · rw [if_pos hcond] at hms
      injection hms with hms
      subst hms
      rw [List.mem_filter]
      constructor
      · rintro ⟨h1, h2⟩
        exact ⟨h1, (containsSub_iff a.data ref.data).mp h2⟩
      · rintro ⟨h1, h2⟩
        exact ⟨h1, (containsSub_iff a.data ref.data).mpr h2⟩
    · rw [if_neg hcond] at hms
      cases hms
  · intro p hp
    unfold findReferencedFlags at hp
    rw [List.mem_filterMap] at hp
    obtain ⟨q, hq, hmap⟩ := hp
    rw [Option.map_eq_some'] at hmap
    obtain ⟨ms, hms, hpq⟩ := hmap
    subst hpq
    exact ⟨q.2, hq, hms⟩

/-- C3 counterexample: the delimiter set is the double quote, the alias
occurs in the line with no delimiter around it, yet it is attributed to
its flag — refuting the claim that a term (flag key *or alias*) is
attributed only when delimiter-wrapped. -/
theorem claim_C3_counterexample :
    ("\"" : String).data ≠ [] ∧
    findReferencedFlags "xaliasAx" [("myFlag", ["aliasA"])] "\"" =
      [("myFlag", ["aliasA"])] ∧
    ¬ DelimitedOccurs ("\"" : String).data ("aliasA" : String).data
      ("xaliasAx" : String).data := by
  refine ⟨by decide, by decide, fun h => ?_⟩
  have := (matchDelimited_iff ("\"" : String).data ("aliasA" : String).data
    ("xaliasAx" : String).data).mpr h
  exact absurd this (by decide)

/-- C3 witness: the amended characterization applied at a concrete line
on which the key occurs quote-wrapped. -/
theorem claim_C3_witness :
    ("\"" : String).data ≠ [] ∧
    ((findReferencedFlagsEntry "c(\"myFlag\")" "\"" "myFlag" []).isSome ↔
      DelimitedOccurs ("\"" : String).data ("myFlag" : String).data
          ("c(\"myFlag\")" : String).data ∨
        ∃ a ∈ ([] : List String), SubOccurs a.data ("c(\"myFlag\")" : String).data) :=
  ⟨by decide, (claim_C3 "c(\"myFlag\")" "\"" "myFlag" [] [] (by decide)).1⟩

/-! ### C6: the per-(file, flag) 500 hunked-line cap -/

theorem foldl_append_eq_bind {α β : Type} (f : α → List β) :
    ∀ (l : List α) (init : List β),
      l.foldl (fun acc p => acc ++ f p) init = init ++ l.flatMap f := by
  intro l
  induction l with
  | nil => intro init; simp
  | cons p t ih => intro init; simp [ih, List.flatMap_cons]

theorem makeHunkReps_eq_bind (pk : String) (fsr : FileSearchResults) (c : Int) :
    makeHunkReps pk fsr c = fsr.flagReferenceMap.flatMap
      (fun p => buildHunksForFlag pk p.1 fsr.path fsr.fileSearchResultLines p.2 c) := by
  unfold makeHunkReps
  rw [foldl_append_eq_bind]
  simp

/-- C6: when processing a reference pushes the hunked-line counter for
this (file, flag) beyond 500, `buildHunksForFlag` returns right after
that reference with the hunks built so far (whatever references remain),
and `makeHunkReps` still emits every other flag's hunks: the file's
output is the concatenation of each flag's own `buildHunksForFlag`
result, independent of what happened to the other flags. -/
theorem claim_C6 (pk flag _path : String) (lines : List SearchResultLine) (c : Int) :
    (∀ (st : BuildState) (r : Nat) (rs : List Nat),
      maxHunkedLinesPerFileAndFlagCount < (processRef pk flag lines c st r).numHunkedLines →
      buildHunksGo pk flag lines c st (r :: rs) = (processRef pk flag lines c st r).hunks) ∧
    (∀ (fsr : FileSearchResults) (l1 l2 : List (String × List Nat)) (p : String × List Nat),
      fsr.flagReferenceMap = l1 ++ p :: l2 →
      makeHunkReps pk fsr c =
        (l1.flatMap (fun q => buildHunksForFlag pk q.1 fsr.path fsr.fileSearchResultLines q.2 c)) ++
        buildHunksForFlag pk p.1 fsr.path fsr.fileSearchResultLines p.2 c ++
        (l2.flatMap (fun q => buildHunksForFlag pk q.1 fsr.path fsr.fileSearchResultLines q.2 c))) := by
  constructor
  · intro st r rs h
    unfold buildHunksGo
    rw [if_pos h]
  · intro fsr l1 l2 p hsplit
    rw [makeHunkReps_eq_bind, hsplit]
    simp [List.flatMap_append, List.flatMap_cons]

/-- C6 witness: a state already at 500 hunked lines stops after the next
reference (the remaining reference list is ignored), and on the concrete
file every flag's hunks appear in `makeHunkReps`. -/
theorem claim_C6_witness :
    maxHunkedLinesPerFileAndFlagCount <
      (processRef "p" "flag-a" exLines 0
        { initBuildState with numHunkedLines := 500 } 0).numHunkedLines ∧
    buildHunksGo "p" "flag-a" exLines 0
      { initBuildState with numHunkedLines := 500 } [0, 2] =
      (processRef "p" "flag-a" exLines 0
        { initBuildState with numHunkedLines := 500 } 0).hunks ∧
    (aggregateByPath exLines).map
        (fun agg => agg.map (fun fsr => fsr.flagReferenceMap)) =
      some [[("flag-a", [0, 2])]] ∧
    makeHunkReps "p" ⟨"a.go", exLines, [("flag-a", [0, 2])]⟩ 0 =
      ([] : List (String × List Nat)).flatMap
        (fun q => buildHunksForFlag "p" q.1 "a.go" exLines q.2 0) ++
      buildHunksForFlag "p" "flag-a" "a.go" exLines [0, 2] 0 ++
      ([] : List (String × List Nat)).flatMap
        (fun q => buildHunksForFlag "p" q.1 "a.go" exLines q.2 0) := by
  refine ⟨by decide, ?_, by decide, ?_⟩
  · exact (claim_C6 "p" "flag-a" "a.go" exLines 0).1
      { initBuildState with numHunkedLines := 500 } 0 [2] (by decide)
  · exact (claim_C6 "p" "flag-a" "a.go" exLines 0).2
      ⟨"a.go", exLines, [("flag-a", [0, 2])]⟩ [] [] ("flag-a", [0, 2]) rfl

/-! ### C7: the global 25 000 hunk cap of `makeReferenceHunksReps` -/

theorem makeReferenceHunksRepsGo_stop (pk : String) (c : Int) (n : Nat)
    (files : List FileSearchResults) (h : maxHunkCount < n) :
    makeReferenceHunksRepsGo pk c n files = [] := by
  cases files with
  | nil => rfl
  | cons f fs => simp [makeReferenceHunksRepsGo, h]

theorem makeReferenceHunksRepsGo_budget (pk : String) (c : Int) :
    ∀ (files : List FileSearchResults) (n : Nat) (pre : List ReferenceHunksRep)
      (rep : ReferenceHunksRep) (post : List ReferenceHunksRep),
      makeReferenceHunksRepsGo pk c n files = pre ++ rep :: post →
      n + ((pre.map (fun x => x.hunks.length)).sum) ≤ maxHunkCount := by
  intro files
  induction files with
  | nil =>
    intro n pre rep post h
    exact absurd h (by simp [makeReferenceHunksRepsGo])
  | cons f fs ih =>
    intro n pre rep post h
    unfold makeReferenceHunksRepsGo at h
    by_cases h25 : maxHunkCount < n
    · rw [if_pos h25] at h
      exact absurd h (by simp)
    · rw [if_neg h25] at h
      by_cases hemp : (makeHunkReps pk f c).isEmpty
      · rw [if_pos hemp] at h
        exact ih n pre rep post h
      · rw [if_neg hemp] at h
        cases pre with
        | nil =>
          simpa using Nat.le_of_not_lt h25
        | cons x pre' =>
          rw [List.cons_append] at h
          injection h with hx htail
          have := ih (n + (makeHunkReps pk f c).length) pre' rep post htail
          have hxh : x.hunks.length = (makeHunkReps pk f c).length := by
            rw [← hx]
          simp only [List.map_cons, List.sum_cons, hxh]
          omega

/-- C7: every file whose hunks appear in the output was begun while the
running hunk total was at most 25 000, and once the running total exceeds
25 000 no further file contributes any hunks. -/
theorem claim_C7 (pk : String) (c : Int) :
    (∀ (n : Nat) (files : List FileSearchResults), maxHunkCount < n →
      makeReferenceHunksRepsGo pk c n files = []) ∧
    (∀ (g : List SearchResultLine) (reps pre post : List ReferenceHunksRep)
      (rep : ReferenceHunksRep),
      makeReferenceHunksReps pk c g = some reps → reps = pre ++ rep :: post →
      ((pre.map (fun x => x.hunks.length)).sum) ≤ maxHunkCount) := by
  constructor
  · intro n files h
    exact makeReferenceHunksRepsGo_stop pk c n files h
  · intro g reps pre post rep hsome hsplit
    unfold makeReferenceHunksReps at hsome
    rw [Option.map_eq_some'] at hsome
    obtain ⟨agg, -, hreps⟩ := hsome
    subst hreps
    have := makeReferenceHunksRepsGo_budget pk c (agg.take maxFileCount) 0 pre rep post hsplit
    omega

/-- C7 witness: on a concrete one-file input the emitted rep's prefix
budget is within the cap, and a running total beyond the cap stops
emission. -/
theorem claim_C7_witness :
    makeReferenceHunksRepsGo "p" 1 25001 [emptyFSR "b.go"] = [] ∧
    (∃ reps, makeReferenceHunksReps "p" 1 exLines = some reps ∧
      ∃ rep, reps = [] ++ rep :: [] ∧
        (([] : List ReferenceHunksRep).map (fun x => x.hunks.length)).sum ≤ maxHunkCount) := by
  constructor
  · exact (claim_C7 "p" 1).1 25001 [emptyFSR "b.go"] (by decide)
  · have h : makeReferenceHunksReps "p" 1 exLines =
        some [⟨"a.go", [⟨"p", "flag-a", 1, "L1\nL2\nL3\nL4\n", []⟩]⟩] := by decide
    exact ⟨_, h, _, rfl, (claim_C7 "p" 1).2 exLines _ [] [] _ h rfl⟩

/-- C8: aggregation fails fatally exactly when some search-result line is
followed (within the same path) by a line with a strictly smaller line
number; equal or increasing line numbers within a path are accepted. -/
theorem claim_C8 (g : List SearchResultLine) :
    aggregateByPath g = none ↔
      ∃ l1 a b l2, g = l1 ++ a :: b :: l2 ∧ a.path = b.path ∧ b.lineNum < a.lineNum := by
  cases g with
  | nil =>
    simp only [aggregateByPath]
    constructor
    · intro h; cases h
    · rintro ⟨l1, a, b, l2, h, -, -⟩
      exact absurd h (by simp)
  | cons g0 rest =>
    rw [← Option.isNone_iff_eq_none, ← hasOrderViolation_iff]
    show (aggregateStep (emptyFSR g0.path) [] (g0 :: rest)).isNone = true ↔ _
    rw [aggregateStep_isNone]
    show stepViol (emptyFSR g0.path).path (Option.map _ List.nil.getLast?) _ = true ↔ _
    unfold stepViol
    simp only [Option.map_none', List.getLast?_nil]
    rw [stepViol_eq_hasOrderViolation rest g0]
    show (((g0.path == g0.path) && false) || _) = true ↔ _
    rw [Bool.and_false, Bool.false_or]

/-! ### Coverage and context bounds under contiguity (C1) -/

theorem lineNumAt_ofContig (lines : List SearchResultLine) (hcont : LinesContig lines) :
    ∀ i < lines.length, lineNumAt lines i = lineNumAt lines 0 + i := by
  intro i
  induction i with
  | zero => intro _; simp
  | succ n ih =>
    intro hi
    rw [hcont n (by omega) hi, ih (by omega)]
    push_cast
    ring

theorem sorted_ofContig (lines : List SearchResultLine) (hcont : LinesContig lines) :
    LinesSorted lines := by
  intro i hi j hj hij
  rw [lineNumAt_ofContig lines hcont i (by omega), lineNumAt_ofContig lines hcont j hj]
  omega

theorem walkForward_contig (lines : List SearchResultLine) (flag : String)
    (hn : NoNewlines lines)
    (hnum : ∀ i < lines.length, lineNumAt lines i = lineNumAt lines 0 + i) :
    ∀ (k : Nat) (st : WalkState), st.ptr < lines.length →
      (walkForward lines flag (k + 1) st).lastSeen =
        max st.lastSeen (lineNumAt lines (min (st.ptr + k) (lines.length - 1))) ∧
      (countNL (walkForward lines flag (k + 1) st).builder : Int) =
        (countNL st.builder : Int) +
          (lineNumAt lines (min (st.ptr + k) (lines.length - 1)) -
            max st.lastSeen (lineNumAt lines st.ptr - 1)).toNat := by
  intro k
  induction k with
  | zero =>
    intro st hp
    have hca : lineNumAt lines st.ptr = (lineAt lines st.ptr).lineNum := rfl
    have hmin : min (st.ptr + 0) (lines.length - 1) = st.ptr := by omega
    rw [hmin]
    by_cases hw : st.lastSeen < (lineAt lines st.ptr).lineNum
    · by_cases hnext : st.ptr + 1 < lines.length
      · have heq : walkForward lines flag (0 + 1) st =
            { ptr := st.ptr + 1, lastSeen := (lineAt lines st.ptr).lineNum,
              builder := st.builder ++ truncateLineNoPanic (lineAt lines st.ptr).lineText ++ "\n",
              curAliases := st.curAliases ++ lookupFlag (lineAt lines st.ptr).flagKeys flag,
              numHunked := st.numHunked + 1 } := by
          simp only [walkForward]
          rw [if_pos hw, if_pos hnext]
        rw [heq]
        dsimp only
        rw [countNL_write _ _ (noNewlines_total lines hn st.ptr)]
        constructor
        · omega
        · push_cast
          omega
      · have heq : walkForward lines flag (0 + 1) st =
            { ptr := st.ptr, lastSeen := (lineAt lines st.ptr).lineNum,
              builder := st.builder ++ truncateLineNoPanic (lineAt lines st.ptr).lineText ++ "\n",
              curAliases := st.curAliases ++ lookupFlag (lineAt lines st.ptr).flagKeys flag,
              numHunked := st.numHunked + 1 } := by
          simp only [walkForward]
          rw [if_pos hw, if_neg hnext]
        rw [heq]
        dsimp only
        rw [countNL_write _ _ (noNewlines_total lines hn st.ptr)]
        constructor
        · omega
        · push_cast
          omega
    · have heq : walkForward lines flag (0 + 1) st =
          (if st.ptr + 1 < lines.length then { st with ptr := st.ptr + 1 } else st) := by
        simp only [walkForward]
        rw [if_neg hw]
      rw [heq]
      by_cases hnext : st.ptr + 1 < lines.length
      · rw [if_pos hnext]
        dsimp only
        constructor
        · omega
        · omega
      · rw [if_neg hnext]
        constructor
        · omega
        · omega
  | succ k ih =>
    intro st hp
    have hca : lineNumAt lines st.ptr = (lineAt lines st.ptr).lineNum := rfl
    by_cases hw : st.lastSeen < (lineAt lines st.ptr).lineNum
    · by_cases hnext : st.ptr + 1 < lines.length
      · obtain ⟨ih1, ih2⟩ := ih
          { ptr := st.ptr + 1, lastSeen := (lineAt lines st.ptr).lineNum,
            builder := st.builder ++ truncateLineNoPanic (lineAt lines st.ptr).lineText ++ "\n",
            curAliases := st.curAliases ++ lookupFlag (lineAt lines st.ptr).flagKeys flag,
            numHunked := st.numHunked + 1 } (by exact hnext)
        have heq : walkForward lines flag (k + 1 + 1) st = walkForward lines flag (k + 1)
            { ptr := st.ptr + 1, lastSeen := (lineAt lines st.ptr).lineNum,
              builder := st.builder ++ truncateLineNoPanic (lineAt lines st.ptr).lineText ++ "\n",
              curAliases := st.curAliases ++ lookupFlag (lineAt lines st.ptr).flagKeys flag,
              numHunked := st.numHunked + 1 } := by
          simp only [walkForward]
          rw [if_pos hw, if_pos hnext]
        dsimp only at ih1 ih2
        rw [countNL_write _ _ (noNewlines_total lines hn st.ptr)] at ih2
        have hidx : min (st.ptr + 1 + k) (lines.length - 1) =
            min (st.ptr + (k + 1)) (lines.length - 1) := by omega
        rw [hidx] at ih1 ih2
        have hP := hnum st.ptr hp
        have hQ := hnum (st.ptr + 1) hnext
        have hM := hnum (min (st.ptr + (k + 1)) (lines.length - 1)) (by omega)
        rw [heq, ih1, ih2]
        constructor
        · omega
        · push_cast
          omega
      · obtain ⟨ih1, ih2⟩ := ih
          { ptr := st.ptr, lastSeen := (lineAt lines st.ptr).lineNum,
            builder := st.builder ++ truncateLineNoPanic (lineAt lines st.ptr).lineText ++ "\n",
            curAliases := st.curAliases ++ lookupFlag (lineAt lines st.ptr).flagKeys flag,
            numHunked := st.numHunked + 1 } (by exact hp)
        have heq : walkForward lines flag (k + 1 + 1) st = walkForward lines flag (k + 1)
            { ptr := st.ptr, lastSeen := (lineAt lines st.ptr).lineNum,
              builder := st.builder ++ truncateLineNoPanic (lineAt lines st.ptr).lineText ++ "\n",
              curAliases := st.curAliases ++ lookupFlag (lineAt lines st.ptr).flagKeys flag,
              numHunked := st.numHunked + 1 } := by
          simp only [walkForward]
          rw [if_pos hw, if_neg hnext]
        dsimp only at ih1 ih2
        rw [countNL_write _ _ (noNewlines_total lines hn st.ptr)] at ih2
        have hidx1 : min (st.ptr + k) (lines.length - 1) = st.ptr := by omega
        have hidx2 : min (st.ptr + (k + 1)) (lines.length - 1) = st.ptr := by omega
        rw [hidx1] at ih1 ih2
        rw [hidx2, heq, ih1, ih2]
        constructor
        · omega
        · push_cast
          omega
    · have heq : walkForward lines flag (k + 1 + 1) st = walkForward lines flag (k + 1)
          (if st.ptr + 1 < lines.length then { st with ptr := st.ptr + 1 } else st) := by
        simp only [walkForward]
        rw [if_neg hw]
      by_cases hnext : st.ptr + 1 < lines.length
      · rw [if_pos hnext] at heq
        obtain ⟨ih1, ih2⟩ := ih { st with ptr := st.ptr + 1 } (by exact hnext)
        dsimp only at ih1 ih2
        have hidx : min (st.ptr + 1 + k) (lines.length - 1) =
            min (st.ptr + (k + 1)) (lines.length - 1) := by omega
        rw [hidx] at ih1 ih2
        have hP := hnum st.ptr hp
        have hQ := hnum (st.ptr + 1) hnext
        have hM := hnum (min (st.ptr + (k + 1)) (lines.length - 1)) (by omega)
        rw [heq, ih1, ih2]
        constructor
        · rfl
        · omega
      · rw [if_neg hnext] at heq
        obtain ⟨ih1, ih2⟩ := ih st hp
        have hidx1 : min (st.ptr + k) (lines.length - 1) = st.ptr := by omega
        have hidx2 : min (st.ptr + (k + 1)) (lines.length - 1) = st.ptr := by omega
        rw [hidx1] at ih1 ih2
        rw [hidx2, heq]
        exact ⟨ih1, ih2⟩

theorem processRef_c1_step (pk flag : String) (lines : List SearchResultLine) (c : Int)
    (hn : NoNewlines lines)
    (hnum : ∀ i < lines.length, lineNumAt lines i = lineNumAt lines 0 + i)
    (hp : LinesPositive lines) (hc : 0 ≤ c) (allRefs : List Nat) (st : BuildState) (r : Nat)
    (hr : r < lines.length) (hral : r ∈ allRefs)
    (hA : ∀ h ∈ st.hunks, LowerOK lines allRefs c h ∧ UpperOK lines allRefs c h)
    (hB : match st.hunks.getLast? with
      | none => st.lastSeenLineNum = -1
      | some hl => hl.lines = st.builder ∧ hunkEnd hl = st.lastSeenLineNum ∧
          1 ≤ countNL st.builder)
    (hC : st.lastSeenLineNum ≤ lineNumAt lines r - 1 + c)
    (hD : ∀ hl, st.hunks.getLast? = some hl →
      hl.startingLineNumber ≤ lineNumAt lines r) :
    (∀ h ∈ (processRef pk flag lines c st r).hunks,
      LowerOK lines allRefs c h ∧ UpperOK lines allRefs c h) ∧
    (match (processRef pk flag lines c st r).hunks.getLast? with
      | none => (processRef pk flag lines c st r).lastSeenLineNum = -1
      | some hl => hl.lines = (processRef pk flag lines c st r).builder ∧
          hunkEnd hl = (processRef pk flag lines c st r).lastSeenLineNum ∧
          1 ≤ countNL (processRef pk flag lines c st r).builder) ∧
    (processRef pk flag lines c st r).lastSeenLineNum ≤ lineNumAt lines r + c ∧
    (∀ hl, (processRef pk flag lines c st r).hunks.getLast? = some hl →
      hl.startingLineNumber ≤ lineNumAt lines r) ∧
    (∀ x, CoveredIn x st.hunks → CoveredIn x (processRef pk flag lines c st r).hunks) ∧
    CoveredIn (lineNumAt lines r) (processRef pk flag lines c st r).hunks := by
  have hsorted : LinesSorted lines := by
    intro i hi j hj hij
    rw [hnum i (by omega), hnum j hj]
    omega
  have hkc : (c.toNat : Int) = c := Int.toNat_of_nonneg hc
  have hfst := seekBack_fst lines st.lastSeenLineNum c.toNat r 0 false
  have hsnd := seekBack_snd lines st.lastSeenLineNum c.toNat r 0 false
  have hap := seekBack_ap lines st.lastSeenLineNum hsorted c.toNat r 0 false hr
  have hpv : (seekBack lines st.lastSeenLineNum c.toNat (r, 0, false)).1 =
      r - min c.toNat r := hfst
  have hstepsv : (((seekBack lines st.lastSeenLineNum c.toNat (r, 0, false)).2.1 : Int) +
      1 + c).toNat = min c.toNat r + c.toNat + 1 := by
    rw [hsnd]
    omega
  have hidx : min (r - min c.toNat r + (min c.toNat r + c.toNat)) (lines.length - 1) =
      min (r + c.toNat) (lines.length - 1) := by omega
  have hnumP : lineNumAt lines (r - min c.toNat r) =
      lineNumAt lines 0 + ((r - min c.toNat r : Nat) : Int) := hnum _ (by omega)
  have hnumR : lineNumAt lines r = lineNumAt lines 0 + r := hnum r hr
  have hnumM : lineNumAt lines (min (r + c.toNat) (lines.length - 1)) =
      lineNumAt lines 0 + (min (r + c.toNat) (lines.length - 1)) := hnum _ (by omega)
  have hnumE : lineNumAt lines (lines.length - 1) =
      lineNumAt lines 0 + (lines.length - 1 : Nat) := hnum _ (by omega)
  simp only [processRef]
  cases hapv : (seekBack lines st.lastSeenLineNum c.toNat (r, 0, false)).2.2 with
  | false =>
    rw [hapv, Bool.false_or] at hap
    have hgt : st.lastSeenLineNum < lineNumAt lines (r - min c.toNat r) := by
      rcases Nat.eq_zero_or_pos c.toNat with hk0 | hk1
      · have h1 : r - min c.toNat r = r := by omega
        rw [h1]
        omega
      · by_contra hle
        push_neg at hle
        have hk1' : 1 ≤ c.toNat := hk1
        rw [decide_eq_true hk1', decide_eq_true hle, Bool.true_and] at hap
        cases hap
    simp only [hapv, Bool.false_eq_true, reduceIte]
    rw [hpv, hstepsv]
    set w := walkForward lines flag (min c.toNat r + c.toNat + 1)
      { ptr := r - min c.toNat r, lastSeen := st.lastSeenLineNum, builder := "",
        curAliases := [], numHunked := st.numHunkedLines } with hwdef
    obtain ⟨hwL, hwC⟩ := walkForward_contig lines flag hn hnum (min c.toNat r + c.toNat)
      { ptr := r - min c.toNat r, lastSeen := st.lastSeenLineNum, builder := "",
        curAliases := [], numHunked := st.numHunkedLines }
      (by show r - min c.toNat r < lines.length; omega)
    rw [← hwdef] at hwL hwC
    dsimp only at hwL hwC
    rw [countNL_empty] at hwC
    rw [hidx] at hwL hwC
    refine ⟨?_, ?_, ?_, ?_, ?_, ?_⟩
    · intro h hmem
      rcases List.mem_append.mp hmem with hmem' | hmem'
      · exact hA h hmem'
      · rw [List.mem_singleton] at hmem'
        subst hmem'
        constructor
        · by_cases hkr : c.toNat < r
          · refine Or.inr ⟨r, hral, ⟨?_, ?_⟩, ?_⟩
            · show lineNumAt lines (r - min c.toNat r) ≤ lineNumAt lines r
              omega
            · show lineNumAt lines r ≤ hunkEnd _
              unfold hunkEnd
              dsimp only
              omega
            · show lineNumAt lines r - c ≤ lineNumAt lines (r - min c.toNat r)
              omega
          · refine Or.inl ?_
            have h1 : r - min c.toNat r = 0 := by omega
            show lineNumAt lines (r - min c.toNat r) = lineNumAt lines 0
            rw [h1]
        · by_cases hre : r + c.toNat ≤ lines.length - 1
          · refine Or.inr ⟨r, hral, ⟨?_, ?_⟩, ?_⟩
            · show lineNumAt lines (r - min c.toNat r) ≤ lineNumAt lines r
              omega
            · show lineNumAt lines r ≤ hunkEnd _
              unfold hunkEnd
              dsimp only
              omega
            · show hunkEnd _ ≤ lineNumAt lines r + c
              unfold hunkEnd
              dsimp only
              omega
          · refine Or.inl ?_
            show hunkEnd _ = lineNumAt lines (lines.length - 1)
            unfold hunkEnd
            dsimp only
            omega
    · rw [List.getLast?_concat]
      refine ⟨rfl, ?_, ?_⟩
      · unfold hunkEnd
        dsimp only
        omega
      · dsimp only
        omega
    · dsimp only
      omega
    · intro hl hheq
      rw [List.getLast?_concat] at hheq
      injection hheq with h2
      subst h2
      dsimp only
      omega
    · intro x hx
      unfold CoveredIn at hx ⊢
      obtain ⟨h, hh, h1, h2⟩ := hx
      exact ⟨h, List.mem_append_left _ hh, h1, h2⟩
    · unfold CoveredIn
      refine ⟨⟨pk, flag, lineNumAt lines (r - min c.toNat r), w.builder, dedupe w.curAliases⟩, List.mem_append_right _ (by simp), ?_, ?_⟩
      · show lineNumAt lines (r - min c.toNat r) ≤ lineNumAt lines r
        omega
      · show lineNumAt lines r ≤ hunkEnd _
        unfold hunkEnd
        dsimp only
        omega
  | true =>
    rw [hapv] at hap
    have h1 := hap.symm
    rw [Bool.false_or, Bool.and_eq_true, decide_eq_true_eq, decide_eq_true_eq] at h1
    have hle : lineNumAt lines (r - min c.toNat r) ≤ st.lastSeenLineNum := h1.2
    have hL1 : 1 ≤ st.lastSeenLineNum :=
      le_trans (hp (r - min c.toNat r) (by omega)) hle
    rcases List.eq_nil_or_concat st.hunks with hnil | ⟨hs', hl, hconcat⟩
    · rw [hnil] at hB
      simp only [List.getLast?_nil] at hB
      omega
    · rw [List.concat_eq_append] at hconcat
      have hBlast := hB
      rw [hconcat, List.getLast?_concat] at hBlast
      obtain ⟨hllines, hlend, hlcnt⟩ := hBlast
      have hDhl : hl.startingLineNumber ≤ lineNumAt lines r :=
        hD hl (by rw [hconcat, List.getLast?_concat])
      have hcnteq : countNL hl.lines = countNL st.builder := by rw [hllines]
      unfold hunkEnd at hlend
      simp only [hapv, reduceIte]
      rw [hpv, hstepsv, hconcat, setLastLines_concat]
      set w := walkForward lines flag (min c.toNat r + c.toNat + 1)
        { ptr := r - min c.toNat r, lastSeen := st.lastSeenLineNum, builder := st.builder,
          curAliases := st.curAliases, numHunked := st.numHunkedLines } with hwdef
      obtain ⟨hwL, hwC⟩ := walkForward_contig lines flag hn hnum (min c.toNat r + c.toNat)
        { ptr := r - min c.toNat r, lastSeen := st.lastSeenLineNum, builder := st.builder,
          curAliases := st.curAliases, numHunked := st.numHunkedLines }
        (by show r - min c.toNat r < lines.length; omega)
      rw [← hwdef] at hwL hwC
      dsimp only at hwL hwC
      rw [hidx] at hwL hwC
      refine ⟨?_, ?_, ?_, ?_, ?_, ?_⟩
      · intro h hmem
        rcases List.mem_append.mp hmem with hmem' | hmem'
        · refine hA h ?_
          rw [hconcat]
          exact List.mem_append_left _ hmem'
        · rw [List.mem_singleton] at hmem'
          subst hmem'
          obtain ⟨hLo, hUp⟩ := hA hl (by rw [hconcat]; exact List.mem_append_right _ (by simp))
          constructor
          · rcases hLo with hstart0 | ⟨r0, hr0al, hin, hlow⟩
            · refine Or.inl ?_
              show ({ hl with lines := w.builder } : HunkRep).startingLineNumber =
                lineNumAt lines 0
              dsimp only
              exact hstart0
            · refine Or.inr ⟨r0, hr0al, ⟨?_, ?_⟩, ?_⟩
              · exact hin.1
              · have h2 := hin.2
                unfold hunkEnd at h2 ⊢
                dsimp only
                omega
              · exact hlow
          · by_cases hML : lineNumAt lines (min (r + c.toNat) (lines.length - 1)) ≤
                st.lastSeenLineNum
            · have hEE : hunkEnd { hl with lines := w.builder } = hunkEnd hl := by
                unfold hunkEnd
                dsimp only
                omega
              rcases hUp with hend0 | ⟨r0, hr0al, hin, hup⟩
              · refine Or.inl ?_
                rw [hEE]
                exact hend0
              · refine Or.inr ⟨r0, hr0al, ⟨hin.1, ?_⟩, ?_⟩
                · rw [hEE]
                  exact hin.2
                · rw [hEE]
                  exact hup
            · by_cases hre : r + c.toNat ≤ lines.length - 1
              · refine Or.inr ⟨r, hral, ⟨hDhl, ?_⟩, ?_⟩
                · unfold hunkEnd
                  dsimp only
                  omega
                · show hunkEnd _ ≤ lineNumAt lines r + c
                  unfold hunkEnd
                  dsimp only
                  omega
              · refine Or.inl ?_
                show hunkEnd _ = lineNumAt lines (lines.length - 1)
                unfold hunkEnd
                dsimp only
                omega
      · rw [List.getLast?_concat]
        refine ⟨rfl, ?_, ?_⟩
        · unfold hunkEnd
          dsimp only
          omega
        · dsimp only
          omega
      · dsimp only
        omega
      · intro hl2 hheq
        rw [List.getLast?_concat] at hheq
        injection hheq with h2
        subst h2
        dsimp only
        exact hDhl
      · intro x hx
        unfold CoveredIn at hx ⊢
        obtain ⟨h, hh, hx1, hx2⟩ := hx
        rcases List.mem_append.mp hh with hh' | hh'
        · exact ⟨h, List.mem_append_left _ hh', hx1, hx2⟩
        · rw [List.mem_singleton] at hh'
          rw [hh'] at hx1 hx2
          refine ⟨{ hl with lines := w.builder }, List.mem_append_right _ (by simp), hx1, ?_⟩
          unfold hunkEnd at hx2 ⊢
          dsimp only
          omega
      · unfold CoveredIn
        refine ⟨{ hl with lines := w.builder }, List.mem_append_right _ (by simp), hDhl, ?_⟩
        unfold hunkEnd
        dsimp only
        omega

theorem buildHunksGo_eq_state (pk flag : String) (lines : List SearchResultLine) (c : Int) :
    ∀ (rs : List Nat) (st : BuildState),
      buildHunksGo pk flag lines c st rs = (buildHunksGoState pk flag lines c st rs).hunks := by
  intro rs
  induction rs with
  | nil => intro st; rfl
  | cons r rs ih =>
    intro st
    simp only [buildHunksGo, buildHunksGoState]
    by_cases hstop : maxHunkedLinesPerFileAndFlagCount <
        (processRef pk flag lines c st r).numHunkedLines
    · rw [if_pos hstop, if_pos hstop]
    · rw [if_neg hstop, if_neg hstop]
      exact ih _

theorem buildGoState_c1 (pk flag : String) (lines : List SearchResultLine) (c : Int)
    (hn : NoNewlines lines)
    (hnum : ∀ i < lines.length, lineNumAt lines i = lineNumAt lines 0 + i)
    (hp : LinesPositive lines) (hc : 0 ≤ c) (allRefs : List Nat) :
    ∀ (rs : List Nat) (st : BuildState),
      (∀ r ∈ rs, r < lines.length ∧ r ∈ allRefs) →
      List.Pairwise (fun a b => a < b) rs →
      (∀ h ∈ st.hunks, LowerOK lines allRefs c h ∧ UpperOK lines allRefs c h) →
      (match st.hunks.getLast? with
        | none => st.lastSeenLineNum = -1
        | some hl => hl.lines = st.builder ∧ hunkEnd hl = st.lastSeenLineNum ∧
            1 ≤ countNL st.builder) →
      (∀ r ∈ rs, st.lastSeenLineNum ≤ lineNumAt lines r - 1 + c) →
      (∀ r ∈ rs, ∀ hl, st.hunks.getLast? = some hl →
        hl.startingLineNumber ≤ lineNumAt lines r) →
      (buildHunksGoState pk flag lines c st rs).numHunkedLines ≤
        maxHunkedLinesPerFileAndFlagCount →
      (∀ h ∈ (buildHunksGoState pk flag lines c st rs).hunks,
        LowerOK lines allRefs c h ∧ UpperOK lines allRefs c h) ∧
      (∀ x, CoveredIn x st.hunks →
        CoveredIn x (buildHunksGoState pk flag lines c st rs).hunks) ∧
      (∀ r ∈ rs, CoveredIn (lineNumAt lines r)
        (buildHunksGoState pk flag lines c st rs).hunks) := by
  intro rs
  induction rs with
  | nil =>
    intro st hbnd hpw hA hB hC hD hcap
    exact ⟨hA, fun x hx => hx, by simp⟩
  | cons r rs ih =>
    intro st hbnd hpw hA hB hC hD hcap
    have hr : r < lines.length := (hbnd r (by simp)).1
    have hral : r ∈ allRefs := (hbnd r (by simp)).2
    obtain ⟨sA, sB, sLe, sD, sMono, sCov⟩ := processRef_c1_step pk flag lines c hn hnum hp hc
      allRefs st r hr hral hA hB (hC r (by simp)) (fun hl hhl => hD r (by simp) hl hhl)
    rw [List.pairwise_cons] at hpw
    by_cases hstop : maxHunkedLinesPerFileAndFlagCount <
        (processRef pk flag lines c st r).numHunkedLines
    · exfalso
      have heq : (buildHunksGoState pk flag lines c st (r :: rs)).numHunkedLines =
          (processRef pk flag lines c st r).numHunkedLines := by
        simp only [buildHunksGoState]
        rw [if_pos hstop]
      omega
    · have hgo : buildHunksGoState pk flag lines c st (r :: rs) =
          buildHunksGoState pk flag lines c (processRef pk flag lines c st r) rs := by
        simp only [buildHunksGoState]
        rw [if_neg hstop]
      rw [hgo] at hcap ⊢
      have hnums : ∀ r' ∈ rs, lineNumAt lines r + 1 ≤ lineNumAt lines r' := by
        intro r' hr'
        have h1 := hnum r hr
        have h2 := hnum r' ((hbnd r' (by simp [hr'])).1)
        have h3 := hpw.1 r' hr'
        omega
      obtain ⟨fA, fMono, fCov⟩ := ih (processRef pk flag lines c st r)
        (fun r' hr' => hbnd r' (by simp [hr'])) hpw.2 sA sB
        (fun r' hr' => by have := hnums r' hr'; omega)
        (fun r' hr' hl hhl => le_trans (sD hl hhl) (by have := hnums r' hr'; omega))
        hcap
      refine ⟨fA, fun x hx => fMono x (sMono x hx), ?_⟩
      intro r' hr'
      rcases List.mem_cons.mp hr' with rfl | hr''
      · exact fMono _ sCov
      · exact fCov r' hr''

/-- C1 (corrected): on a CONTIGUOUS block of positive-numbered,
newline-free lines with strictly increasing reference positions,
`0 ≤ contextLines ≤ 5`, and a run that stays within the 500-hunked-lines
cap, every reference's line number lies inside some emitted hunk's range,
and every emitted hunk starts at most `contextLines` lines before some
reference it covers (or is clipped at the start of the block) and ends at
most `contextLines` lines after some reference it covers (or is clipped
at the end of the block). For merely sorted inputs with gaps in the line
numbers the original claim is false: the code counts context in list
steps but emits `lineNumber + count` ranges, see the counterexample. -/
theorem claim_C1 (pk flag path : String) (lines : List SearchResultLine) (refs : List Nat)
    (c : Int) (hcont : LinesContig lines) (hp : LinesPositive lines) (hn : NoNewlines lines)
    (hr : RefsOK lines refs) (hc0 : 0 ≤ c) (_hc5 : c ≤ 5)
    (hcap : (buildHunksGoState pk flag lines c initBuildState refs).numHunkedLines ≤
      maxHunkedLinesPerFileAndFlagCount) :
    (∀ r ∈ refs, CoveredIn (lineNumAt lines r)
      (buildHunksForFlag pk flag path lines refs c)) ∧
    ∀ h ∈ buildHunksForFlag pk flag path lines refs c,
      LowerOK lines refs c h ∧ UpperOK lines refs c h := by
  have hnum := lineNumAt_ofContig lines hcont
  unfold buildHunksForFlag
  rw [buildHunksGo_eq_state]
  obtain ⟨fA, -, fCov⟩ := buildGoState_c1 pk flag lines c hn hnum hp hc0 refs refs
    initBuildState (fun r hrm => ⟨hr.2 r hrm, hrm⟩) hr.1
    (by intro h hm; simp [initBuildState] at hm)
    rfl
    (fun r hrm => by
      have h1 := hp r (hr.2 r hrm)
      show (-1 : Int) ≤ lineNumAt lines r - 1 + c
      omega)
    (fun r hrm hl hhl => by simp [initBuildState] at hhl)
    hcap
  exact ⟨fCov, fA⟩

/-- C1 counterexample: `exGapLines` is sorted (but not contiguous), has
positive line numbers, no newlines, a single valid reference at index 2
(line number 100) and `contextLines = 1` within the claimed `0..5` range,
and the hunked-line cap is not tripped; yet the only emitted hunk is
`[startingLineNumber 2, two lines]`, so the match's line number 100 lies
in no emitted hunk's range, refuting the claim for sorted inputs. -/
theorem claim_C1_counterexample :
    LinesSorted exGapLines ∧ LinesPositive exGapLines ∧ NoNewlines exGapLines ∧
    RefsOK exGapLines [2] ∧ (0 : Int) ≤ 1 ∧ (1 : Int) ≤ 5 ∧
    (buildHunksGoState "p" "flag-a" exGapLines 1 initBuildState [2]).numHunkedLines ≤
      maxHunkedLinesPerFileAndFlagCount ∧
    buildHunksForFlag "p" "flag-a" "a.go" exGapLines [2] 1 =
      [⟨"p", "flag-a", 2, "L2\nL100\n", []⟩] ∧
    ¬ CoveredIn (lineNumAt exGapLines 2)
        (buildHunksForFlag "p" "flag-a" "a.go" exGapLines [2] 1) := by
  decide

/-- Witness for C1 at a concrete contiguous input: `exLines` with
references at indices 0 and 2 and `contextLines = 1`. -/
theorem claim_C1_witness :
    (∀ r ∈ [0, 2], CoveredIn (lineNumAt exLines r)
      (buildHunksForFlag "p" "flag-a" "a.go" exLines [0, 2] 1)) ∧
    ∀ h ∈ buildHunksForFlag "p" "flag-a" "a.go" exLines [0, 2] 1,
      LowerOK exLines [0, 2] 1 h ∧ UpperOK exLines [0, 2] 1 h :=
  claim_C1 "p" "flag-a" "a.go" exLines [0, 2] 1 (by decide) (by decide) (by decide)
    (by decide) (by decide) (by decide) (by decide)

end Coderefs
